import Mathlib

/-!
Shallow embedding of `src/main.rs` (a directed-graph store plus Dijkstra
shortest-path search) and proofs of the specification claims.

Modelling conventions, fixed once for the whole file:

* `f64` edge costs are embedded as `ℚ` (the claims restrict attention to
  finite, non-NaN costs); `f64` *distances*, which the source initialises to
  `f64::INFINITY`, are embedded as `WithTop ℚ` with `⊤` playing the role of
  `+∞` (`⊤ + x = ⊤` matches IEEE `INFINITY + x` for finite non-NaN `x`).
* `HashMap<Vertex<T>, Vec<Edge<T>>>` is embedded as an association list
  `List (Vertex V × List (Edge V))`.  `Vertex` equality/hashing in the source
  is by `id` only, so the map key is effectively the `id` field; insertion
  replaces an entry with an equal id and otherwise appends.  Iteration order
  of a `HashMap` is unspecified in Rust; the list is one concrete
  representative, and no proved statement depends on the order.
* Rust panics (`unwrap`, `panic!`, out-of-bounds indexing) are modelled by
  `Option`-valued operations returning `none`.  The per-call scratch vectors
  `dist`/`visited`/`prev` of `dijkstra` (`vec![..; self.graph.len()]`) are
  modelled as total functions `ℕ → _`; the claim that every index the code
  uses is below `self.graph.len()` is proved separately (claim C10), which is
  what makes the total-function model faithful.
* The `while let Some(..) = queue.pop()` loop is modelled by a fuel-indexed
  iterator of a single-step function; a canonical, provably sufficient fuel
  is used by the top-level entry points, and the sufficiency proof is the
  termination claim (C9).
* `BinaryHeap<(MinNonNan, Vertex<T>)>::pop` returns a maximal element in the
  lexicographic order whose first component is `MinNonNan` (descending in the
  wrapped number, src lines 12-22) and whose second compares `Vertex` by `id`
  (src lines 33-40).  The model removes the leftmost maximal entry; the proofs
  establish that all entries in the queue are distinct in this order, so the
  maximal entry is unique and the model agrees with any heap implementation.
-/

namespace DijkstraRust

/-- `struct Vertex<T> { id: usize, value: T }` (src lines 24-31).  Equality,
ordering and hashing in the source are by `id` alone (src lines 33-79); the
store never holds two vertices with one id, so structural equality of the
model coincides with source equality on store vertices. -/
structure Vertex (V : Type) where
  id : ℕ
  value : V
deriving DecidableEq, Repr

/-- `struct Edge<T> { to: Vertex<T>, cost: f64 }` (src lines 81-87). -/
structure Edge (V : Type) where
  to_ : Vertex V
  cost : ℚ
deriving DecidableEq, Repr

/-- `struct Graph<T> { graph: HashMap<Vertex<T>, Vec<Edge<T>>>, head: usize }`
(src lines 98-104). -/
structure Graph (V : Type) where
  graph : List (Vertex V × List (Edge V))
  head : ℕ
deriving DecidableEq, Repr

/-- `Graph::new` (src lines 110-115). -/
def Graph.new (V : Type) : Graph V := ⟨[], 0⟩

/-- `HashMap::insert` keyed on vertex id: replace the entry whose key has the
same id, else append. -/
def mapInsert {V : Type} (k : Vertex V) (v : List (Edge V)) :
    List (Vertex V × List (Edge V)) → List (Vertex V × List (Edge V))
  | [] => [(k, v)]
  | (k1, v1) :: rest =>
    if k1.id = k.id then (k, v) :: rest else (k1, v1) :: mapInsert k v rest

/-- `Graph::add_vertex` (src lines 117-125): insert a fresh vertex with
id `head`, an empty adjacency list, bump `head`, return the old `head`. -/
def add_vertex {V : Type} (g : Graph V) (value : V) : Graph V × ℕ :=
  ({ graph := mapInsert ⟨g.head, value⟩ [] g.graph, head := g.head + 1 }, g.head)

/-- `Graph::get_vertex` (src lines 127-133): linear search of the map for a
key with the requested id; `none` models the `panic!` on a miss. -/
def get_vertex {V : Type} (g : Graph V) (id : ℕ) : Option (Vertex V) :=
  (g.graph.find? (fun p => p.1.id == id)).map (fun p => p.1)

/-- `HashMap::entry(k).or_insert(vec![]).push(e)`: push onto the list of the
entry whose key has `k`'s id (keeping the stored key, as the Entry API does),
or append a new singleton entry. -/
def entryPush {V : Type} (k : Vertex V) (e : Edge V) :
    List (Vertex V × List (Edge V)) → List (Vertex V × List (Edge V))
  | [] => [(k, [e])]
  | (k1, es) :: rest =>
    if k1.id = k.id then (k1, es ++ [e]) :: rest else (k1, es) :: entryPush k e rest

/-- `Graph::add_edge` (src lines 135-141).  The source resolves `to` first
(`Edge::new(*self.get_vertex(to), cost)`), then `from`; a failed lookup
panics (modelled by `none`) before any mutation of the store. -/
def add_edge {V : Type} (g : Graph V) (from_ to_ : ℕ) (cost : ℚ) : Option (Graph V) :=
  match get_vertex g to_ with
  | none => none
  | some tv =>
    match get_vertex g from_ with
    | none => none
    | some fv => some { g with graph := entryPush fv ⟨tv, cost⟩ g.graph }

/-! ### The `MinNonNan` comparator and the priority queue -/

/-- `MinNonNan::partial_cmp` (src lines 12-16): `other.0.partial_cmp(&self.0)`,
the reversed numeric comparison.  On non-NaN values (all values of
`WithTop ℚ`) `f64::partial_cmp` is `some` of the total comparison. -/
def minNonNanPcmp (x y : WithTop ℚ) : Option Ordering :=
  some (compare y x)

/-- `MinNonNan::cmp` (src lines 18-22): `self.partial_cmp(other).unwrap()`.
The result is kept in `Option`; `isSome` expresses that the `unwrap` does not
panic. -/
def minNonNanCmp (x y : WithTop ℚ) : Option Ordering :=
  minNonNanPcmp x y

/-- Comparison of heap entries `(MinNonNan, Vertex<T>)`: lexicographic, first
the reversed numeric order on the cost, then `Vertex::cmp` which compares ids
(src lines 33-40). -/
def entryCmp {V : Type} (a b : WithTop ℚ × Vertex V) : Ordering :=
  (compare b.1 a.1).then (compare a.2.id b.2.id)

/-- `a` is strictly greater than `b` in the heap order: strictly smaller cost,
or equal cost and strictly larger vertex id. -/
def entryGT {V : Type} (a b : WithTop ℚ × Vertex V) : Prop :=
  a.1 < b.1 ∨ (a.1 = b.1 ∧ b.2.id < a.2.id)

instance {V : Type} : DecidablePred (fun p : (WithTop ℚ × Vertex V) × (WithTop ℚ × Vertex V) => entryGT p.1 p.2) :=
  fun _ => by unfold entryGT; infer_instance

instance {V : Type} (a b : WithTop ℚ × Vertex V) : Decidable (entryGT a b) := by
  unfold entryGT; infer_instance

/-- `BinaryHeap::pop`: remove and return a maximal entry (the leftmost one;
the proofs show the entries in the queue are pairwise distinct in the heap
order, so the maximum is unique). -/
def popMax {V : Type} :
    List (WithTop ℚ × Vertex V) → Option ((WithTop ℚ × Vertex V) × List (WithTop ℚ × Vertex V))
  | [] => none
  | a :: as_ =>
    match popMax as_ with
    | none => some (a, [])
    | some (m, rest) => if entryGT m a then some (m, a :: rest) else some (a, as_)

/-! ### The Dijkstra loop -/

/-- Pointwise update of a total function, modelling `v[i] = x` on the scratch
vectors. -/
def fupd {A : Type} (f : ℕ → A) (i : ℕ) (x : A) : ℕ → A :=
  fun j => if j = i then x else f j

/-- The per-call scratch state of `Graph::dijkstra` (src lines 166-173):
distance table, visited flags, predecessor table, priority queue. -/
structure DState (V : Type) where
  dist : ℕ → WithTop ℚ
  visited : ℕ → Bool
  prev : ℕ → Option (Vertex V)
  queue : List (WithTop ℚ × Vertex V)

/-- One edge relaxation (src lines 183-194): skip finalized targets, then
`new_dist = dist[current.id] + edge.cost`; on strict improvement record
distance and predecessor and push the new entry. -/
def relaxEdge {V : Type} (current : Vertex V) (s : DState V) (e : Edge V) : DState V :=
  if s.visited e.to_.id then s
  else
    let nd := s.dist current.id + (e.cost : WithTop ℚ)
    if nd < s.dist e.to_.id then
      { dist := fupd s.dist e.to_.id nd
        visited := s.visited
        prev := fupd s.prev e.to_.id (some current)
        queue := s.queue ++ [(nd, e.to_)] }
    else s

/-- Relax all outgoing edges of `current` in order (the `for edge in edges`
loop, src lines 183-194). -/
def relaxAll {V : Type} (current : Vertex V) (s : DState V) (es : List (Edge V)) : DState V :=
  es.foldl (relaxEdge current) s

/-- Result of one iteration of the `while let` loop (src lines 175-198):
either the function returns (with the final predecessor table and distance),
or the loop continues in a new state. -/
inductive StepRes (V : Type) where
  | done : (ℕ → Option (Vertex V)) → WithTop ℚ → StepRes V
  | next : DState V → StepRes V

/-- One iteration of the `while let` loop of `Graph::dijkstra`
(src lines 175-198): pop a maximal entry (none: fall through to line 200 and
return `INFINITY`); mark the popped vertex visited; discard stale entries;
fetch the adjacency list (`.getD []` stands for the `unwrap`, which claim C10
proves is never reached on a `none`); relax; early-exit when the popped vertex
is the target. -/
def dstep {V : Type} (g : Graph V) (endId : ℕ) (s : DState V) : StepRes V :=
  match popMax s.queue with
  | none => .done s.prev ⊤
  | some ((c, current), q1) =>
    let s1 : DState V :=
      { dist := s.dist, visited := fupd s.visited current.id true
        prev := s.prev, queue := q1 }
    if s1.dist current.id < c then .next s1
    else
      let es := ((g.graph.find? (fun p => p.1.id == current.id)).map (fun p => p.2)).getD []
      let s2 := relaxAll current s1 es
      if current.id = endId then .done s2.prev (s2.dist endId) else .next s2

/-- Outcome of running the loop for a bounded number of iterations: `done` if
the source loop returned, `more` with the current state otherwise. -/
inductive LoopRes (V : Type) where
  | done : (ℕ → Option (Vertex V)) → WithTop ℚ → LoopRes V
  | more : DState V → LoopRes V

/-- Fuel-indexed iteration of `dstep`. -/
def dloop {V : Type} (g : Graph V) (endId : ℕ) : ℕ → DState V → LoopRes V
  | 0, s => .more s
  | k + 1, s =>
    match dstep g endId s with
    | .done p d => .done p d
    | .next s1 => dloop g endId k s1

/-- The state after lines 166-173 of the source: `dist` all `INFINITY` except
`dist[start.id] = 0`, queue seeded with `(MinNonNan(0.0), start)`, no vertex
visited, no predecessors. -/
def initState {V : Type} (start : Vertex V) : DState V :=
  { dist := fupd (fun _ => (⊤ : WithTop ℚ)) start.id 0
    visited := fun _ => false
    prev := fun _ => none
    queue := [((0 : WithTop ℚ), start)] }

/-- Total number of stored edges. -/
def totalEdges {V : Type} (g : Graph V) : ℕ :=
  (g.graph.map (fun p => p.2.length)).sum

/-- Canonical fuel for the main loop.  Claim C9 proves it suffices: the loop
performs at most `1 + totalEdges g` iterations. -/
def dijkstraFuel {V : Type} (g : Graph V) : ℕ :=
  totalEdges g + g.graph.length + 2

/-- `Graph::dijkstra` (src lines 161-201).  Returns the predecessor table and
the distance (the source also returns `start` and `end`, which are just its
own arguments passed through).  `none` models a run that would need more than
the canonical fuel; claim C9 proves this does not happen. -/
def dijkstra {V : Type} (g : Graph V) (start endv : Vertex V) :
    Option ((ℕ → Option (Vertex V)) × WithTop ℚ) :=
  match dloop g endv.id (dijkstraFuel g) (initState start) with
  | .done p d => some (p, d)
  | .more _ => none

/-- The path-reconstruction loop of `Graph::get_shortest_path`
(src lines 149-156).  The source pushes vertices from `end` back to `start`
and reverses; the model prepends, producing the same list.  `none` models a
panic (`prev[at.id].unwrap()` on `None`) or a diverging walk; the fuel is one
more than the vertex count, which the proofs show suffices whenever the chain
is well-formed. -/
def buildPath {V : Type} (prevF : ℕ → Option (Vertex V)) (startId : ℕ) :
    ℕ → Vertex V → List (Vertex V) → Option (List (Vertex V))
  | 0, _, _ => none
  | fuel + 1, at_, acc =>
    if at_.id = startId then some (at_ :: acc)
    else
      match prevF at_.id with
      | none => none
      | some u => buildPath prevF startId fuel u (at_ :: acc)

/-- `Graph::get_shortest_path` (src lines 143-159): resolve both endpoints
(panic on a bad id), run `dijkstra`, reconstruct the path from the
predecessor table. -/
def get_shortest_path {V : Type} (g : Graph V) (from_ to_ : ℕ) :
    Option (List (Vertex V) × WithTop ℚ) :=
  match get_vertex g from_ with
  | none => none
  | some start =>
    match get_vertex g to_ with
    | none => none
    | some endv =>
      match dijkstra g start endv with
      | none => none
      | some (p, d) =>
        match buildPath p start.id (g.graph.length + 1) endv [] with
        | none => none
        | some path => some (path, d)

/-! ### The example graph of `main` (src lines 222-247) -/

/-- Intermediate stores of `main`: five `add_vertex` calls... -/
def exV1 : Graph String := (add_vertex (Graph.new String) "A").1
def exV2 : Graph String := (add_vertex exV1 "B").1
def exV3 : Graph String := (add_vertex exV2 "C").1
def exV4 : Graph String := (add_vertex exV3 "D").1
def exV5 : Graph String := (add_vertex exV4 "E").1

def exE1 : Graph String := (add_edge exV5 0 1 1).getD exV5
def exE2 : Graph String := (add_edge exE1 0 2 3).getD exE1
def exE3 : Graph String := (add_edge exE2 1 3 2).getD exE2
def exE4 : Graph String := (add_edge exE3 1 4 8).getD exE3
def exE5 : Graph String := (add_edge exE4 1 2 1).getD exE4
def exE6 : Graph String := (add_edge exE5 2 3 1).getD exE5
def exE7 : Graph String := (add_edge exE6 3 4 4).getD exE6
def exE8 : Graph String := (add_edge exE7 4 2 3).getD exE7
def exampleGraph : Graph String := (add_edge exE8 2 4 3).getD exE8

/-- A two-vertex graph with no edges: vertex 1 is unreachable from vertex 0. -/
def twoG : Graph String := (add_vertex (add_vertex (Graph.new String) "A").1 "B").1

/-! ### Store predicates and the store invariant -/

/-- The list of vertex identities present as keys of the store. -/
def keyIds {V : Type} (g : Graph V) : List ℕ :=
  g.graph.map (fun p => p.1.id)

/-- `v` is a key of the store. -/
def IsKey {V : Type} (g : Graph V) (v : Vertex V) : Prop :=
  ∃ es, (v, es) ∈ g.graph

/-- The store holds an edge from the vertex with id `i` to the vertex with
id `j` of cost `c`. -/
def HasEdge {V : Type} (g : Graph V) (i j : ℕ) (c : ℚ) : Prop :=
  ∃ p ∈ g.graph, p.1.id = i ∧ ∃ e ∈ p.2, e.to_.id = j ∧ e.cost = c

/-- All stored edge costs are non-negative. -/
def EdgesNonneg {V : Type} (g : Graph V) : Prop :=
  ∀ p ∈ g.graph, ∀ e ∈ p.2, 0 ≤ e.cost

/-- The store invariant (spec section 3): key identities are pairwise
distinct and are exactly `0 .. head-1`, and every stored edge's target vertex
is itself a key of the store. -/
structure StoreInv {V : Type} (g : Graph V) : Prop where
  nodup : (keyIds g).Nodup
  complete : ∀ i, i ∈ keyIds g ↔ i < g.head
  closed : ∀ p ∈ g.graph, ∀ e ∈ p.2, IsKey g e.to_

/-- Graphs reachable from `Graph::new` by the public construction API:
`add_vertex` calls and successful (non-panicking) `add_edge` calls. -/
inductive Built {V : Type} : Graph V → Prop
  | new : Built (Graph.new V)
  | vertex {g : Graph V} (value : V) : Built g → Built (add_vertex g value).1
  | edge {g g1 : Graph V} {f t : ℕ} {c : ℚ} :
      Built g → add_edge g f t c = some g1 → Built g1

/-! ### Store lemmas -/

theorem mapInsert_of_fresh {V : Type} (k : Vertex V) (v : List (Edge V))
    (l : List (Vertex V × List (Edge V))) (h : ∀ p ∈ l, p.1.id ≠ k.id) :
    mapInsert k v l = l ++ [(k, v)] := by
  induction l with
  | nil => rfl
  | cons a rest ih =>
    simp only [mapInsert]
    rw [if_neg (h a (by simp)), ih (fun p hp => h p (by simp [hp]))]
    simp

theorem mem_entryPush {V : Type} {k : Vertex V} {e : Edge V}
    {l : List (Vertex V × List (Edge V))} {q : Vertex V × List (Edge V)}
    (hq : q ∈ entryPush k e l) :
    q ∈ l ∨ (∃ es, (q.1, es) ∈ l ∧ q.2 = es ++ [e]) ∨ q = (k, [e]) := by
  induction l with
  | nil =>
    simp only [entryPush, List.mem_singleton] at hq
    exact Or.inr (Or.inr hq)
  | cons a rest ih =>
    obtain ⟨k1, es⟩ := a
    simp only [entryPush] at hq
    by_cases hk : k1.id = k.id
    · rw [if_pos hk] at hq
      rcases List.mem_cons.mp hq with h1 | h1
      · exact Or.inr (Or.inl ⟨es, by simp [h1], by simp [h1]⟩)
      · exact Or.inl (List.mem_cons_of_mem _ h1)
    · rw [if_neg hk] at hq
      rcases List.mem_cons.mp hq with h1 | h1
      · exact Or.inl (by simp [h1])
      · rcases ih h1 with h2 | h2 | h2
        · exact Or.inl (List.mem_cons_of_mem _ h2)
        · exact Or.inr (Or.inl ⟨h2.choose, List.mem_cons_of_mem _ h2.choose_spec.1, h2.choose_spec.2⟩)
        · exact Or.inr (Or.inr h2)

theorem entryPush_keys {V : Type} (k : Vertex V) (e : Edge V)
    (l : List (Vertex V × List (Edge V))) (h : ∃ p ∈ l, p.1.id = k.id) :
    (entryPush k e l).map (fun p => p.1.id) = l.map (fun p => p.1.id) := by
  induction l with
  | nil => simp at h
  | cons a rest ih =>
    obtain ⟨k1, es⟩ := a
    simp only [entryPush]
    by_cases hk : k1.id = k.id
    · rw [if_pos hk]; simp
    · rw [if_neg hk]
      simp only [List.map_cons, List.cons.injEq, true_and]
      apply ih
      rcases h with ⟨p, hp, hpid⟩
      rcases List.mem_cons.mp hp with h1 | h1
      · subst h1; exact absurd hpid hk
      · exact ⟨p, h1, hpid⟩

theorem isKey_entryPush {V : Type} {k v : Vertex V} {e : Edge V}
    {l : List (Vertex V × List (Edge V))} (h : ∃ es, (v, es) ∈ l) :
    ∃ es, (v, es) ∈ entryPush k e l := by
  obtain ⟨es, hes⟩ := h
  induction l with
  | nil => simp at hes
  | cons a rest ih =>
    obtain ⟨k1, es1⟩ := a
    simp only [entryPush]
    by_cases hk : k1.id = k.id
    · rw [if_pos hk]
      rcases List.mem_cons.mp hes with h1 | h1
      · exact ⟨es1 ++ [e], by simp [(Prod.mk.injEq .. ▸ h1).1]⟩
      · exact ⟨es, List.mem_cons_of_mem _ h1⟩
    · rw [if_neg hk]
      rcases List.mem_cons.mp hes with h1 | h1
      · exact ⟨es, by simp [h1]⟩
      · obtain ⟨es2, hes2⟩ := ih h1
        exact ⟨es2, List.mem_cons_of_mem _ hes2⟩

theorem get_vertex_eq_some {V : Type} {g : Graph V} {i : ℕ} {v : Vertex V}
    (h : get_vertex g i = some v) : IsKey g v ∧ v.id = i := by
  unfold get_vertex at h
  cases hf : g.graph.find? (fun p => p.1.id == i) with
  | none => rw [hf] at h; simp at h
  | some p =>
    rw [hf] at h
    simp only [Option.map_some', Option.some.injEq] at h
    have hmem := List.mem_of_find?_eq_some hf
    have hid := List.find?_some hf
    simp only [beq_iff_eq] at hid
    exact ⟨⟨p.2, by rw [← h]; exact hmem⟩, h ▸ hid⟩

theorem get_vertex_mem {V : Type} {g : Graph V} {i : ℕ} (h : i ∈ keyIds g) :
    ∃ v, get_vertex g i = some v ∧ v.id = i ∧ IsKey g v := by
  unfold keyIds at h
  obtain ⟨p, hp, hpid⟩ := List.mem_map.mp h
  unfold get_vertex
  cases hf : g.graph.find? (fun q => q.1.id == i) with
  | none =>
    rw [List.find?_eq_none] at hf
    exact absurd (by simp [hpid]) (hf p hp)
  | some q =>
    have hmem := List.mem_of_find?_eq_some hf
    have hid := List.find?_some hf
    simp only [beq_iff_eq] at hid
    exact ⟨q.1, by simp, hid, ⟨q.2, hmem⟩⟩

theorem get_vertex_eq_none {V : Type} {g : Graph V} {i : ℕ} (h : i ∉ keyIds g) :
    get_vertex g i = none := by
  unfold get_vertex
  rw [List.find?_eq_none.mpr]
  · rfl
  · intro p hp
    simp only [beq_iff_eq]
    intro hpi
    exact h (List.mem_map.mpr ⟨p, hp, hpi⟩)

theorem StoreInv.key_lt_head {V : Type} {g : Graph V} (hs : StoreInv g)
    {p : Vertex V × List (Edge V)} (hp : p ∈ g.graph) : p.1.id < g.head :=
  (hs.complete p.1.id).mp (List.mem_map.mpr ⟨p, hp, rfl⟩)

theorem StoreInv.key_unique {V : Type} {g : Graph V} (hs : StoreInv g)
    {p q : Vertex V × List (Edge V)} (hp : p ∈ g.graph) (hq : q ∈ g.graph)
    (h : p.1.id = q.1.id) : p = q :=
  List.inj_on_of_nodup_map hs.nodup hp hq h

/-- The store invariant holds for every graph built through the construction
API (claim C7). -/
theorem built_storeInv {V : Type} {g : Graph V} (hb : Built g) : StoreInv g := by
  induction hb with
  | new =>
    refine ⟨by simp [keyIds, Graph.new], ?_, ?_⟩
    · intro i; simp [keyIds, Graph.new]
    · intro p hp; simp [Graph.new] at hp
  | vertex value hb ih =>
    rename_i g
    have hfresh : ∀ p ∈ g.graph, p.1.id ≠ g.head := by
      intro p hp h
      exact absurd ((ih.complete g.head).mp (List.mem_map.mpr ⟨p, hp, h⟩))
        (lt_irrefl g.head)
    have hins : (add_vertex g value).1.graph = g.graph ++ [(⟨g.head, value⟩, [])] := by
      simp only [add_vertex]
      exact mapInsert_of_fresh _ _ _ hfresh
    have hkeys : keyIds (add_vertex g value).1 = keyIds g ++ [g.head] := by
      simp [keyIds, hins]
    refine ⟨?_, ?_, ?_⟩
    · rw [hkeys]
      refine List.Nodup.append ih.nodup (List.nodup_singleton _) ?_
      intro a ha hb1
      simp only [List.mem_singleton] at hb1
      subst hb1
      exact absurd ((ih.complete _).mp ha) (lt_irrefl _)
    · intro i
      rw [hkeys]
      simp only [List.mem_append, List.mem_singleton, ih.complete, add_vertex]
      omega
    · intro p hp e he
      rw [hins] at hp
      rcases List.mem_append.mp hp with h1 | h1
      · obtain ⟨es, hes⟩ := ih.closed p h1 e he
        exact ⟨es, by rw [hins]; exact List.mem_append_left _ hes⟩
      · simp only [List.mem_singleton] at h1
        subst h1
        simp at he
  | edge hb hadd ih =>
    rename_i g g1 f t c
    unfold add_edge at hadd
    cases ht : get_vertex g t with
    | none => rw [ht] at hadd; simp at hadd
    | some tv =>
      rw [ht] at hadd
      cases hf : get_vertex g f with
      | none => rw [hf] at hadd; simp at hadd
      | some fv =>
        rw [hf] at hadd
        simp only [Option.some.injEq] at hadd
        obtain ⟨⟨fes, hfes⟩, _⟩ := get_vertex_eq_some hf
        obtain ⟨htvkey, _⟩ := get_vertex_eq_some ht
        have hgr : g1.graph = entryPush fv ⟨tv, c⟩ g.graph := by rw [← hadd]
        have hhd : g1.head = g.head := by rw [← hadd]
        have hkeys : keyIds g1 = keyIds g := by
          unfold keyIds
          rw [hgr]
          exact entryPush_keys _ _ _ ⟨(fv, fes), hfes, rfl⟩
        refine ⟨hkeys ▸ ih.nodup, ?_, ?_⟩
        · intro i; rw [hkeys, hhd]; exact ih.complete i
        · intro p hp e he
          rw [hgr] at hp
          have trans1 : ∀ w : Vertex V, IsKey g w → IsKey g1 w := by
            intro w hw
            rw [IsKey, hgr]
            exact isKey_entryPush hw
          rcases mem_entryPush hp with h1 | ⟨es, hes, hq2⟩ | h1
          · exact trans1 _ (ih.closed p h1 e he)
          · rw [hq2] at he
            rcases List.mem_append.mp he with h2 | h2
            · exact trans1 _ (ih.closed (p.1, es) hes e h2)
            · simp only [List.mem_singleton] at h2
              subst h2
              exact trans1 _ htvkey
          · subst h1
            simp only [List.mem_singleton] at he
            subst he
            exact trans1 _ htvkey

/-- `StoreInv` pins the size of the map: the number of entries equals `head`. -/
theorem StoreInv.length_eq {V : Type} {g : Graph V} (hs : StoreInv g) :
    g.graph.length = g.head := by
  have hperm : List.Perm (keyIds g) (List.range g.head) := by
    rw [List.perm_ext_iff_of_nodup hs.nodup (List.nodup_range ..)]
    intro i
    rw [hs.complete, List.mem_range]
  have := hperm.length_eq
  simpa [keyIds, List.length_range] using this

/-! ### Walks -/

/-- A directed walk in the store from the vertex with id `i` to the vertex
with id `j`, of total cost `w` (costs summed front to back).  The trivial
walk requires its vertex to be present in the store. -/
inductive WalkCost {V : Type} (g : Graph V) : ℕ → ℕ → ℚ → Prop
  | nil {i : ℕ} : i ∈ keyIds g → WalkCost g i i 0
  | cons {i j k : ℕ} {c w : ℚ} :
      HasEdge g i j c → WalkCost g j k w → WalkCost g i k (c + w)

theorem WalkCost.costCast {V : Type} {g : Graph V} {i j : ℕ} {w w1 : ℚ}
    (h : WalkCost g i j w) (hw : w = w1) : WalkCost g i j w1 := hw ▸ h

theorem HasEdge.target_mem {V : Type} {g : Graph V} (hs : StoreInv g)
    {i j : ℕ} {c : ℚ} (h : HasEdge g i j c) : j ∈ keyIds g := by
  obtain ⟨p, hp, _, e, he, hej, _⟩ := h
  obtain ⟨es, hes⟩ := hs.closed p hp e he
  exact List.mem_map.mpr ⟨(e.to_, es), hes, hej⟩

theorem WalkCost.snoc {V : Type} {g : Graph V} (hs : StoreInv g)
    {a b d : ℕ} {w c : ℚ} (hw : WalkCost g a b w) (he : HasEdge g b d c) :
    WalkCost g a d (w + c) := by
  induction hw with
  | nil hmem =>
    exact (WalkCost.cons he (WalkCost.nil (he.target_mem hs))).costCast (by ring)
  | cons h1 _ ih =>
    exact (WalkCost.cons h1 (ih he)).costCast (by ring)

theorem WalkCost.nonneg {V : Type} {g : Graph V} (hn : EdgesNonneg g)
    {i j : ℕ} {w : ℚ} (h : WalkCost g i j w) : 0 ≤ w := by
  induction h with
  | nil _ => exact le_refl 0
  | cons he _ ih =>
    obtain ⟨p, hp, _, e, hep, _, hec⟩ := he
    have := hn p hp e hep
    rw [hec] at this
    exact add_nonneg this ih

/-! ### Heap-order lemmas -/

theorem not_entryGT_iff {V : Type} (a b : WithTop ℚ × Vertex V) :
    ¬ entryGT a b ↔ b.1 ≤ a.1 ∧ (a.1 = b.1 → a.2.id ≤ b.2.id) := by
  unfold entryGT
  push_neg
  exact Iff.rfl

theorem entryGT_irrefl {V : Type} (a : WithTop ℚ × Vertex V) : ¬ entryGT a a := by
  rw [not_entryGT_iff]
  exact ⟨le_refl _, fun _ => le_refl _⟩

theorem entryGT_asymm {V : Type} {a b : WithTop ℚ × Vertex V}
    (h : entryGT a b) : ¬ entryGT b a := by
  rw [not_entryGT_iff]
  rcases h with h | ⟨h1, h2⟩
  · exact ⟨le_of_lt h, fun he => absurd (lt_of_lt_of_le h (le_of_eq he)) (lt_irrefl _)⟩
  · exact ⟨le_of_eq h1, fun _ => le_of_lt h2⟩

theorem not_entryGT_trans {V : Type} {x m a : WithTop ℚ × Vertex V}
    (h1 : ¬ entryGT x m) (h2 : ¬ entryGT m a) : ¬ entryGT x a := by
  rw [not_entryGT_iff] at h1 h2 ⊢
  obtain ⟨h1a, h1b⟩ := h1
  obtain ⟨h2a, h2b⟩ := h2
  refine ⟨le_trans h2a h1a, fun he => ?_⟩
  have hxm : x.1 = m.1 := le_antisymm (le_trans (le_of_eq he) h2a) h1a
  exact le_trans (h1b hxm) (h2b (hxm.symm.trans he))

/-! ### popMax lemmas -/

theorem popMax_eq_none_iff {V : Type} (q : List (WithTop ℚ × Vertex V)) :
    popMax q = none ↔ q = [] := by
  cases q with
  | nil => simp [popMax]
  | cons a as_ =>
    cases hm : popMax as_ with
    | none => simp [popMax, hm]
    | some p =>
      obtain ⟨m, rest⟩ := p
      simp only [popMax, hm]
      split <;> simp

theorem popMax_perm {V : Type} {q : List (WithTop ℚ × Vertex V)}
    {e : WithTop ℚ × Vertex V} {r : List (WithTop ℚ × Vertex V)}
    (h : popMax q = some (e, r)) : q.Perm (e :: r) := by
  induction q generalizing e r with
  | nil => simp [popMax] at h
  | cons a as_ ih =>
    cases hm : popMax as_ with
    | none =>
      simp only [popMax, hm, Option.some.injEq, Prod.mk.injEq] at h
      obtain ⟨he, hr⟩ := h
      subst he; subst hr
      rw [(popMax_eq_none_iff as_).mp hm]
    | some p =>
      obtain ⟨m, rest⟩ := p
      simp only [popMax, hm] at h
      split at h
      · simp only [Option.some.injEq, Prod.mk.injEq] at h
        obtain ⟨he, hr⟩ := h
        subst he; subst hr
        exact List.Perm.trans (List.Perm.cons a (ih hm)) (List.Perm.swap _ _ _)
      · simp only [Option.some.injEq, Prod.mk.injEq] at h
        obtain ⟨he, hr⟩ := h
        subst he; subst hr
        rfl

theorem popMax_max {V : Type} {q : List (WithTop ℚ × Vertex V)}
    {e : WithTop ℚ × Vertex V} {r : List (WithTop ℚ × Vertex V)}
    (h : popMax q = some (e, r)) : ∀ x ∈ q, ¬ entryGT x e := by
  induction q generalizing e r with
  | nil => simp [popMax] at h
  | cons a as_ ih =>
    cases hm : popMax as_ with
    | none =>
      simp only [popMax, hm, Option.some.injEq, Prod.mk.injEq] at h
      obtain ⟨he, _⟩ := h
      subst he
      intro x hx
      rw [(popMax_eq_none_iff as_).mp hm] at hx
      simp only [List.mem_singleton] at hx
      subst hx
      exact entryGT_irrefl _
    | some p =>
      obtain ⟨m, rest⟩ := p
      simp only [popMax, hm] at h
      split at h
      · rename_i hgt
        simp only [Option.some.injEq, Prod.mk.injEq] at h
        obtain ⟨he, _⟩ := h
        subst he
        intro x hx
        rcases List.mem_cons.mp hx with h1 | h1
        · subst h1; exact entryGT_asymm hgt
        · exact ih hm x h1
      · rename_i hngt
        simp only [Option.some.injEq, Prod.mk.injEq] at h
        obtain ⟨he, _⟩ := h
        subst he
        intro x hx
        rcases List.mem_cons.mp hx with h1 | h1
        · subst h1; exact entryGT_irrefl _
        · exact not_entryGT_trans (ih hm x h1) hngt

/-! ### Generic facts about the scratch state -/

theorem fupd_self {A : Type} (f : ℕ → A) (i : ℕ) (x : A) : fupd f i x i = x := by
  simp [fupd]

theorem fupd_ne {A : Type} (f : ℕ → A) (i : ℕ) (x : A) {j : ℕ} (h : j ≠ i) :
    fupd f i x j = f j := by
  simp [fupd, h]

theorem relaxEdge_visited {V : Type} (current : Vertex V) (s : DState V) (e : Edge V) :
    (relaxEdge current s e).visited = s.visited := by
  unfold relaxEdge
  dsimp only
  split
  · rfl
  · split <;> rfl

theorem relaxAll_visited {V : Type} (current : Vertex V) (s : DState V) (es : List (Edge V)) :
    (relaxAll current s es).visited = s.visited := by
  induction es generalizing s with
  | nil => rfl
  | cons e rest ih =>
    unfold relaxAll at ih ⊢
    rw [List.foldl_cons, ih, relaxEdge_visited]

theorem relaxEdge_dist_le {V : Type} (current : Vertex V) (s : DState V) (e : Edge V)
    (i : ℕ) : (relaxEdge current s e).dist i ≤ s.dist i := by
  unfold relaxEdge
  dsimp only
  split
  · exact le_refl _
  · split
    · rename_i hlt
      by_cases hi : i = e.to_.id
      · subst hi
        simp only [fupd_self]
        exact le_of_lt hlt
      · simp only [fupd_ne _ _ _ hi]
        exact le_refl _
    · exact le_refl _

theorem relaxAll_dist_le {V : Type} (current : Vertex V) (s : DState V) (es : List (Edge V))
    (i : ℕ) : (relaxAll current s es).dist i ≤ s.dist i := by
  induction es generalizing s with
  | nil => exact le_refl _
  | cons e rest ih =>
    unfold relaxAll at ih ⊢
    rw [List.foldl_cons]
    exact le_trans (ih _) (relaxEdge_dist_le current s e i)

theorem relaxEdge_dist_visited {V : Type} (current : Vertex V) (s : DState V) (e : Edge V)
    {i : ℕ} (h : s.visited i = true) : (relaxEdge current s e).dist i = s.dist i := by
  unfold relaxEdge
  dsimp only
  split
  · rfl
  · split
    · rename_i hnv _
      have : i ≠ e.to_.id := fun hh => by rw [hh] at h; rw [h] at hnv; exact hnv rfl
      simp only [fupd_ne _ _ _ this]
    · rfl

theorem relaxAll_dist_visited {V : Type} (current : Vertex V) (s : DState V)
    (es : List (Edge V)) {i : ℕ} (h : s.visited i = true) :
    (relaxAll current s es).dist i = s.dist i := by
  induction es generalizing s with
  | nil => rfl
  | cons e rest ih =>
    unfold relaxAll at ih ⊢
    rw [List.foldl_cons]
    rw [ih (relaxEdge current s e) (by rw [relaxEdge_visited]; exact h),
      relaxEdge_dist_visited current s e h]

theorem relaxEdge_queue_len {V : Type} (current : Vertex V) (s : DState V) (e : Edge V) :
    (relaxEdge current s e).queue.length ≤ s.queue.length + 1 := by
  unfold relaxEdge
  dsimp only
  split
  · omega
  · split
    · simp
    · omega

theorem relaxAll_queue_len {V : Type} (current : Vertex V) (s : DState V)
    (es : List (Edge V)) :
    (relaxAll current s es).queue.length ≤ s.queue.length + es.length := by
  induction es generalizing s with
  | nil => simp [relaxAll]
  | cons e rest ih =>
    unfold relaxAll at ih ⊢
    rw [List.foldl_cons]
    calc (List.foldl (relaxEdge current) (relaxEdge current s e) rest).queue.length
        ≤ (relaxEdge current s e).queue.length + rest.length := ih _
      _ ≤ s.queue.length + 1 + rest.length := by
          have := relaxEdge_queue_len current s e
          omega
      _ = s.queue.length + (e :: rest).length := by simp; omega

theorem relaxEdge_queue_mem {V : Type} (current : Vertex V) (s : DState V) (e : Edge V)
    {x : WithTop ℚ × Vertex V} (h : x ∈ s.queue) : x ∈ (relaxEdge current s e).queue := by
  unfold relaxEdge
  dsimp only
  split
  · exact h
  · split
    · exact List.mem_append_left _ h
    · exact h

theorem relaxAll_queue_mem {V : Type} (current : Vertex V) (s : DState V)
    (es : List (Edge V)) {x : WithTop ℚ × Vertex V} (h : x ∈ s.queue) :
    x ∈ (relaxAll current s es).queue := by
  induction es generalizing s with
  | nil => exact h
  | cons e rest ih =>
    unfold relaxAll at ih ⊢
    rw [List.foldl_cons]
    exact ih _ (relaxEdge_queue_mem current s e h)

/-! ### The loop invariants -/

/-- The queue-discipline invariant of the main loop, independent of edge-cost
signs.  `j1`: every queue entry names a store key, its cost is finite and at
least the recorded distance of its vertex.  `j2`: entries of visited vertices
are strictly stale.  `j3`: entries sharing a vertex have pairwise distinct
costs.  `j4`: an unvisited vertex with finite recorded distance has a queue
entry carrying exactly that distance.  `j6`: visited vertices have finite
recorded distance. -/
structure BasicInv {V : Type} (g : Graph V) (s : DState V) : Prop where
  j1 : ∀ x ∈ s.queue, IsKey g x.2 ∧ s.dist x.2.id ≤ x.1 ∧ x.1 ≠ ⊤
  j2 : ∀ x ∈ s.queue, s.visited x.2.id = true → s.dist x.2.id < x.1
  j3 : s.queue.Pairwise (fun a b => a.2.id = b.2.id → a.1 ≠ b.1)
  j4 : ∀ i, s.visited i = false → s.dist i ≠ ⊤ →
        ∃ x ∈ s.queue, x.2.id = i ∧ x.1 = s.dist i
  j6 : ∀ i, s.visited i = true → s.dist i ≠ ⊤

/-- Reachability of `startId` by iterating the predecessor table from `i`,
within at most `k` steps. -/
inductive Reaches {V : Type} (p : ℕ → Option (Vertex V)) (startId : ℕ) : ℕ → ℕ → Prop
  | base {k : ℕ} : Reaches p startId k startId
  | step {k i : ℕ} {u : Vertex V} :
      p i = some u → Reaches p startId k u.id → Reaches p startId (k + 1) i

theorem Reaches.mono {V : Type} {p : ℕ → Option (Vertex V)} {startId k k1 i : ℕ}
    (h : Reaches p startId k i) (hk : k ≤ k1) : Reaches p startId k1 i := by
  induction h generalizing k1 with
  | base => exact Reaches.base
  | step hp _ ih =>
    obtain ⟨k2, rfl⟩ : ∃ k2, k1 = k2 + 1 := ⟨k1 - 1, by omega⟩
    exact Reaches.step hp (ih (by omega))

/-- Number of visited store keys. -/
def visCount {V : Type} (g : Graph V) (vis : ℕ → Bool) : ℕ :=
  g.graph.countP (fun p => vis p.1.id)

/-- `K4At g s p`: if the source vertex of entry `p` is visited, each of its
edges has been relaxed: the target is visited or its recorded distance is at
most distance-of-source plus the edge cost. -/
def K4At {V : Type} (g : Graph V) (s : DState V) (p : Vertex V × List (Edge V)) : Prop :=
  s.visited p.1.id = true → ∀ e ∈ p.2,
    s.visited e.to_.id = true ∨ s.dist e.to_.id ≤ s.dist p.1.id + (e.cost : WithTop ℚ)

/-- The optimality invariant of the main loop (requires non-negative costs
for preservation).  `k0`: the start keeps distance 0.  `k2`: recorded
distances are non-negative.  `k1a`: finite recorded distances are realised by
walks from the start.  `k1b`: visited vertices have optimal recorded
distance.  `k3`: a recorded predecessor is a visited key joined by a store
edge whose cost accounts exactly for the distance difference.  `kp`:
non-start vertices with finite distance have a predecessor.  `k5`:
predecessor chains reach the start within `visCount` steps. -/
structure OptInv {V : Type} (g : Graph V) (startId : ℕ) (s : DState V) : Prop where
  k0 : s.dist startId = 0
  k2 : ∀ i, 0 ≤ s.dist i
  k4 : ∀ p ∈ g.graph, K4At g s p
  k1a : ∀ i, s.dist i ≠ ⊤ → ∃ w : ℚ, s.dist i = (w : WithTop ℚ) ∧ WalkCost g startId i w
  k1b : ∀ i, s.visited i = true → ∀ w : ℚ, WalkCost g startId i w → s.dist i ≤ (w : WithTop ℚ)
  k3 : ∀ i u, s.prev i = some u → IsKey g u ∧ s.visited u.id = true ∧
        ∃ c : ℚ, HasEdge g u.id i c ∧ s.dist i = s.dist u.id + (c : WithTop ℚ)
  kp : ∀ i, i ≠ startId → s.dist i ≠ ⊤ → s.prev i ≠ none
  k5 : ∀ i, s.prev i ≠ none → Reaches s.prev startId (visCount g s.visited) i

/-- Edge-weight of the unvisited part of the store: total length of the
adjacency lists of unvisited keys. -/
def unvisitedEdges {V : Type} (g : Graph V) (vis : ℕ → Bool) : ℕ :=
  (g.graph.map (fun p => if vis p.1.id then 0 else p.2.length)).sum

/-- Termination measure of the main loop. -/
def measureD {V : Type} (g : Graph V) (s : DState V) : ℕ :=
  s.queue.length + unvisitedEdges g s.visited

/-! ### Basic-invariant preservation through relaxation -/

theorem relaxEdge_basic {V : Type} {g : Graph V} {current : Vertex V} {s : DState V}
    {e : Edge V} (hTK : IsKey g e.to_) (hcv : s.visited current.id = true)
    (hb : BasicInv g s) : BasicInv g (relaxEdge current s e) := by
  unfold relaxEdge
  dsimp only
  split
  · exact hb
  · rename_i hnv
    split
    · rename_i hlt
      have hndt : s.dist current.id + (e.cost : WithTop ℚ) ≠ ⊤ := ne_top_of_lt hlt
      have hdle : ∀ i, fupd s.dist e.to_.id (s.dist current.id + (e.cost : WithTop ℚ)) i
          ≤ s.dist i := by
        intro i
        by_cases hit : i = e.to_.id
        · subst hit
          rw [fupd_self]
          exact le_of_lt hlt
        · rw [fupd_ne _ _ _ hit]
      refine ⟨?_, ?_, ?_, ?_, ?_⟩
      · intro x hx
        rcases List.mem_append.mp hx with hx1 | hx1
        · obtain ⟨hk, hd, hne⟩ := hb.j1 x hx1
          exact ⟨hk, le_trans (hdle _) hd, hne⟩
        · simp only [List.mem_singleton] at hx1
          subst hx1
          exact ⟨hTK, le_of_eq (fupd_self _ _ _), hndt⟩
      · intro x hx hvis
        rcases List.mem_append.mp hx with hx1 | hx1
        · exact lt_of_le_of_lt (hdle _) (hb.j2 x hx1 hvis)
        · simp only [List.mem_singleton] at hx1
          subst hx1
          exact absurd hvis hnv
      · rw [List.pairwise_append]
        refine ⟨hb.j3, List.pairwise_singleton _ _, ?_⟩
        intro a ha b hbb
        simp only [List.mem_singleton] at hbb
        subst hbb
        intro hid
        obtain ⟨_, hd, _⟩ := hb.j1 a ha
        rw [hid] at hd
        exact ne_of_gt (lt_of_lt_of_le hlt hd)
      · intro i hvi hdi
        dsimp only at hvi hdi ⊢
        by_cases hit : i = e.to_.id
        · subst hit
          exact ⟨(s.dist current.id + (e.cost : WithTop ℚ), e.to_),
            List.mem_append_right _ (List.mem_singleton.mpr rfl), rfl,
            (fupd_self _ _ _).symm⟩
        · rw [fupd_ne _ _ _ hit] at hdi
          obtain ⟨x, hx, hxi, hxd⟩ := hb.j4 i hvi hdi
          exact ⟨x, List.mem_append_left _ hx, hxi, by rw [fupd_ne _ _ _ hit]; exact hxd⟩
      · intro i hv
        dsimp only at hv ⊢
        have hit : i ≠ e.to_.id := fun hh => by rw [hh] at hv; exact hnv hv
        rw [fupd_ne _ _ _ hit]
        exact hb.j6 i hv
    · exact hb

theorem relaxAll_basic {V : Type} {g : Graph V} {current : Vertex V} {s : DState V}
    {es : List (Edge V)} (hTK : ∀ e ∈ es, IsKey g e.to_)
    (hcv : s.visited current.id = true) (hb : BasicInv g s) :
    BasicInv g (relaxAll current s es) := by
  induction es generalizing s with
  | nil => exact hb
  | cons e rest ih =>
    unfold relaxAll at ih ⊢
    rw [List.foldl_cons]
    exact ih (fun e1 he1 => hTK e1 (List.mem_cons_of_mem _ he1))
      (by rw [relaxEdge_visited]; exact hcv)
      (relaxEdge_basic (hTK e (by simp)) hcv hb)

/-! ### Optimality-invariant preservation through relaxation -/

theorem reaches_fupd_stable {V : Type} {p : ℕ → Option (Vertex V)} {startId k y : ℕ}
    (v : Option (Vertex V)) (hch : ∀ j u, p j = some u → u.id ≠ y) :
    ∀ {i : ℕ}, Reaches p startId k i → i ≠ y → Reaches (fupd p y v) startId k i := by
  intro i h
  induction h with
  | base => intro _; exact Reaches.base
  | step hp _ ih =>
    intro hiy
    exact Reaches.step (by rw [fupd_ne _ _ _ hiy]; exact hp) (ih (hch _ _ hp))

/-- The optimality invariant of the main loop, shaped for the relaxation
fold: `k4o` covers only source vertices other than `current` (whose own edges
are being relaxed one by one), and the bookkeeping facts about `current`
(visited, reaching the start) are carried along. -/
structure RelaxInv {V : Type} (g : Graph V) (startId : ℕ) (current : Vertex V)
    (s : DState V) : Prop where
  k0 : s.dist startId = 0
  k2 : ∀ i, 0 ≤ s.dist i
  k4o : ∀ p ∈ g.graph, p.1.id ≠ current.id → K4At g s p
  k1a : ∀ i, s.dist i ≠ ⊤ → ∃ w : ℚ, s.dist i = (w : WithTop ℚ) ∧ WalkCost g startId i w
  k1b : ∀ i, s.visited i = true → ∀ w : ℚ, WalkCost g startId i w → s.dist i ≤ (w : WithTop ℚ)
  k3 : ∀ i u, s.prev i = some u → IsKey g u ∧ s.visited u.id = true ∧
        ∃ c : ℚ, HasEdge g u.id i c ∧ s.dist i = s.dist u.id + (c : WithTop ℚ)
  kp : ∀ i, i ≠ startId → s.dist i ≠ ⊤ → s.prev i ≠ none
  k5 : ∀ i, s.prev i ≠ none → Reaches s.prev startId (visCount g s.visited) i
  curVis : s.visited current.id = true
  curReach : current.id = startId ∨
    Reaches s.prev startId (visCount g s.visited - 1) current.id

theorem relaxEdge_opt {V : Type} {g : Graph V} {startId : ℕ} {current : Vertex V}
    {s : DState V} {e : Edge V} (hs : StoreInv g) (hcK : IsKey g current)
    (hE : HasEdge g current.id e.to_.id e.cost) (hTK : IsKey g e.to_) (hc : 0 ≤ e.cost)
    (hb : BasicInv g s) (hr : RelaxInv g startId current s) :
    RelaxInv g startId current (relaxEdge current s e) ∧
      (s.visited e.to_.id = true ∨
        (relaxEdge current s e).dist e.to_.id ≤
          (relaxEdge current s e).dist current.id + (e.cost : WithTop ℚ)) := by
  unfold relaxEdge
  dsimp only
  split
  · rename_i hv
    exact ⟨hr, Or.inl hv⟩
  · rename_i hnv
    split
    · rename_i hlt
      have hndt : s.dist current.id + (e.cost : WithTop ℚ) ≠ ⊤ := ne_top_of_lt hlt
      have hdcur_ne : s.dist current.id ≠ ⊤ := by
        intro hh
        rw [hh, top_add] at hndt
        exact hndt rfl
      have htcur : e.to_.id ≠ current.id := by
        intro hh
        rw [hh] at hnv
        exact hnv hr.curVis
      have hnd0 : (0 : WithTop ℚ) ≤ s.dist current.id + (e.cost : WithTop ℚ) :=
        add_nonneg (hr.k2 _) (by exact_mod_cast hc)
      have hstart : e.to_.id ≠ startId := by
        intro hh
        rw [hh, hr.k0] at hlt
        exact absurd (lt_of_le_of_lt hnd0 hlt) (lt_irrefl _)
      have hdle : ∀ i, fupd s.dist e.to_.id (s.dist current.id + (e.cost : WithTop ℚ)) i
          ≤ s.dist i := by
        intro i
        by_cases hit : i = e.to_.id
        · subst hit
          rw [fupd_self]
          exact le_of_lt hlt
        · rw [fupd_ne _ _ _ hit]
      have hchain : ∀ j u, s.prev j = some u → u.id ≠ e.to_.id := by
        intro j u hj hh
        have := (hr.k3 j u hj).2.1
        rw [hh] at this
        exact hnv this
      refine ⟨⟨?_, ?_, ?_, ?_, ?_, ?_, ?_, ?_, ?_, ?_⟩, ?_⟩
      · dsimp only
        rw [fupd_ne _ _ _ (Ne.symm hstart)]
        exact hr.k0
      · intro i
        dsimp only
        by_cases hit : i = e.to_.id
        · subst hit
          rw [fupd_self]
          exact hnd0
        · rw [fupd_ne _ _ _ hit]
          exact hr.k2 i
      · intro p hp hpne
        intro hpvis e1 he1
        dsimp only at hpvis ⊢
        have hpt : p.1.id ≠ e.to_.id := by
          intro hh
          rw [hh] at hpvis
          exact hnv hpvis
        rcases hr.k4o p hp hpne hpvis e1 he1 with h1 | h1
        · exact Or.inl h1
        · refine Or.inr ?_
          rw [fupd_ne _ _ _ hpt]
          exact le_trans (hdle _) h1
      · intro i hdi
        dsimp only at hdi ⊢
        by_cases hit : i = e.to_.id
        · subst hit
          obtain ⟨w, hw, hwalk⟩ := hr.k1a current.id hdcur_ne
          refine ⟨w + e.cost, ?_, WalkCost.snoc hs hwalk hE⟩
          rw [fupd_self, hw, ← WithTop.coe_add]
        · rw [fupd_ne _ _ _ hit] at hdi ⊢
          exact hr.k1a i hdi
      · intro i hvi w hwalk
        dsimp only at hvi ⊢
        have hit : i ≠ e.to_.id := by
          intro hh
          rw [hh] at hvi
          exact hnv hvi
        rw [fupd_ne _ _ _ hit]
        exact hr.k1b i hvi w hwalk
      · intro i u hpu
        dsimp only at hpu ⊢
        by_cases hit : i = e.to_.id
        · subst hit
          rw [fupd_self] at hpu
          injection hpu with hu
          subst hu
          refine ⟨hcK, hr.curVis, e.cost, hE, ?_⟩
          rw [fupd_self, fupd_ne _ _ _ (Ne.symm htcur)]
        · rw [fupd_ne _ _ _ hit] at hpu
          obtain ⟨hkU, hvisU, c1, hE1, hdist⟩ := hr.k3 i u hpu
          have hut : u.id ≠ e.to_.id := by
            intro hh
            rw [hh] at hvisU
            exact hnv hvisU
          refine ⟨hkU, hvisU, c1, hE1, ?_⟩
          rw [fupd_ne _ _ _ hit, fupd_ne _ _ _ hut]
          exact hdist
      · intro i hist hdi
        dsimp only at hdi ⊢
        by_cases hit : i = e.to_.id
        · subst hit
          rw [fupd_self]
          simp
        · rw [fupd_ne _ _ _ hit] at hdi
          rw [fupd_ne _ _ _ hit]
          exact hr.kp i hist hdi
      · intro i hi
        dsimp only at hi ⊢
        have hVC1 : 1 ≤ visCount g s.visited := by
          obtain ⟨esc, hesc⟩ := hcK
          refine List.countP_pos.mpr ⟨(current, esc), hesc, ?_⟩
          simpa using hr.curVis
        have harith : visCount g s.visited - 1 + 1 = visCount g s.visited := by omega
        have hReachCur : Reaches (fupd s.prev e.to_.id (some current)) startId
            (visCount g s.visited - 1) current.id := by
          rcases hr.curReach with h1 | h1
          · rw [h1]; exact Reaches.base
          · exact reaches_fupd_stable _ hchain h1 (Ne.symm htcur)
        by_cases hit : i = e.to_.id
        · subst hit
          have := Reaches.step (u := current) (by rw [fupd_self]) hReachCur
          rw [harith] at this
          exact this
        · rw [fupd_ne _ _ _ hit] at hi
          exact reaches_fupd_stable _ hchain (hr.k5 i hi) hit
      · exact hr.curVis
      · rcases hr.curReach with h1 | h1
        · exact Or.inl h1
        · exact Or.inr (reaches_fupd_stable _ hchain h1 (Ne.symm htcur))
      · refine Or.inr ?_
        dsimp only
        rw [fupd_self, fupd_ne _ _ _ (Ne.symm htcur)]
    · rename_i hnlt
      refine ⟨hr, Or.inr ?_⟩
      exact le_of_not_lt hnlt

theorem relaxAll_opt {V : Type} {g : Graph V} {startId : ℕ} {current : Vertex V}
    {s : DState V} {es : List (Edge V)} (hs : StoreInv g) (hcK : IsKey g current)
    (hES : ∀ e ∈ es, HasEdge g current.id e.to_.id e.cost ∧ IsKey g e.to_ ∧ 0 ≤ e.cost)
    (hb : BasicInv g s) (hr : RelaxInv g startId current s) :
    RelaxInv g startId current (relaxAll current s es) ∧
      ∀ e ∈ es, s.visited e.to_.id = true ∨
        (relaxAll current s es).dist e.to_.id ≤
          (relaxAll current s es).dist current.id + (e.cost : WithTop ℚ) := by
  induction es generalizing s with
  | nil => exact ⟨hr, by simp⟩
  | cons e rest ih =>
    obtain ⟨hE, hTK, hc⟩ := hES e (by simp)
    have hb1 := relaxEdge_basic hTK hr.curVis hb
    obtain ⟨hr1, hcl⟩ := relaxEdge_opt hs hcK hE hTK hc hb hr
    have hES1 : ∀ e1 ∈ rest, HasEdge g current.id e1.to_.id e1.cost ∧
        IsKey g e1.to_ ∧ 0 ≤ e1.cost :=
      fun e1 he1 => hES e1 (List.mem_cons_of_mem _ he1)
    obtain ⟨hrF, hclR⟩ := ih hES1 hb1 hr1
    have hAllEq : relaxAll current s (e :: rest) =
        relaxAll current (relaxEdge current s e) rest := by
      unfold relaxAll
      rw [List.foldl_cons]
    refine ⟨by rw [hAllEq]; exact hrF, ?_⟩
    intro e1 he1
    rcases List.mem_cons.mp he1 with h1 | h1
    · subst h1
      rcases hcl with h2 | h2
      · exact Or.inl h2
      · refine Or.inr ?_
        rw [hAllEq]
        have hfin_le := relaxAll_dist_le current (relaxEdge current s e1) rest e1.to_.id
        have hfin_cur : (relaxAll current (relaxEdge current s e1) rest).dist current.id =
            (relaxEdge current s e1).dist current.id :=
          relaxAll_dist_visited current _ rest hr1.curVis
        rw [hfin_cur]
        exact le_trans hfin_le h2
    · rcases hclR e1 h1 with h2 | h2
      · rw [relaxEdge_visited] at h2
        exact Or.inl h2
      · refine Or.inr ?_
        rw [hAllEq]
        exact h2

/-! ### Pop-level facts -/

theorem find_entry {V : Type} {g : Graph V} (hs : StoreInv g) {v : Vertex V}
    (hk : IsKey g v) :
    ∃ es, g.graph.find? (fun p => p.1.id == v.id) = some (v, es) ∧ (v, es) ∈ g.graph := by
  obtain ⟨es0, hes0⟩ := hk
  cases hf : g.graph.find? (fun p => p.1.id == v.id) with
  | none =>
    rw [List.find?_eq_none] at hf
    exact absurd (by simp) (hf (v, es0) hes0)
  | some q =>
    have hmem := List.mem_of_find?_eq_some hf
    have hid := List.find?_some hf
    simp only [beq_iff_eq] at hid
    have : q = (v, es0) := hs.key_unique hmem hes0 hid
    subst this
    exact ⟨es0, rfl, hes0⟩

theorem pop_mem {V : Type} {q : List (WithTop ℚ × Vertex V)} {x : WithTop ℚ × Vertex V}
    {rest : List (WithTop ℚ × Vertex V)} (hpop : popMax q = some (x, rest)) : x ∈ q :=
  ((popMax_perm hpop).mem_iff).mpr (List.mem_cons_self _ _)

theorem pop_rest_mem {V : Type} {q : List (WithTop ℚ × Vertex V)}
    {x y : WithTop ℚ × Vertex V} {rest : List (WithTop ℚ × Vertex V)}
    (hpop : popMax q = some (x, rest)) (hy : y ∈ rest) : y ∈ q :=
  ((popMax_perm hpop).mem_iff).mpr (List.mem_cons_of_mem _ hy)

theorem pop_visited_stale {V : Type} {g : Graph V} {s : DState V}
    {c : WithTop ℚ} {cur : Vertex V} {rest : List (WithTop ℚ × Vertex V)}
    (hb : BasicInv g s) (hpop : popMax s.queue = some ((c, cur), rest))
    (hv : s.visited cur.id = true) : s.dist cur.id < c :=
  hb.j2 (c, cur) (pop_mem hpop) hv

theorem pop_unvisited_eq {V : Type} {g : Graph V} {s : DState V}
    {c : WithTop ℚ} {cur : Vertex V} {rest : List (WithTop ℚ × Vertex V)}
    (hb : BasicInv g s) (hpop : popMax s.queue = some ((c, cur), rest))
    (hv : s.visited cur.id = false) : s.dist cur.id = c := by
  obtain ⟨_, hdc, hct⟩ := hb.j1 (c, cur) (pop_mem hpop)
  have hdt : s.dist cur.id ≠ ⊤ := by
    intro hh
    rw [hh] at hdc
    exact hct (top_le_iff.mp hdc)
  obtain ⟨x, hx, hxid, hxc⟩ := hb.j4 cur.id hv hdt
  have hmax := popMax_max hpop x hx
  rw [not_entryGT_iff] at hmax
  exact le_antisymm hdc (hxc ▸ hmax.1)

/-! ### Counting lemmas for the measure and `visCount` -/

theorem countP_vis_congr {V : Type} (l : List (Vertex V × List (Edge V)))
    {v1 v2 : ℕ → Bool} (h : ∀ p ∈ l, v1 p.1.id = v2 p.1.id) :
    l.countP (fun p => v1 p.1.id) = l.countP (fun p => v2 p.1.id) :=
  List.countP_congr (fun x hx => by rw [h x hx])

theorem uv_congr {V : Type} (l : List (Vertex V × List (Edge V)))
    {v1 v2 : ℕ → Bool} (h : ∀ p ∈ l, v1 p.1.id = v2 p.1.id) :
    (l.map (fun p => if v1 p.1.id then 0 else p.2.length)).sum =
      (l.map (fun p => if v2 p.1.id then 0 else p.2.length)).sum := by
  have : l.map (fun p => if v1 p.1.id then 0 else p.2.length) =
      l.map (fun p => if v2 p.1.id then 0 else p.2.length) :=
    List.map_congr_left (fun p hp => by rw [h p hp])
  rw [this]

theorem countP_fupd_true {V : Type} {l : List (Vertex V × List (Edge V))}
    {k : Vertex V} {es : List (Edge V)} {vis : ℕ → Bool} {cid : ℕ}
    (hnd : (l.map (fun p => p.1.id)).Nodup) (hmem : (k, es) ∈ l) (hkid : k.id = cid)
    (hvf : vis cid = false) :
    l.countP (fun p => fupd vis cid true p.1.id) = l.countP (fun p => vis p.1.id) + 1 := by
  induction l with
  | nil => simp at hmem
  | cons a rest ih =>
    simp only [List.map_cons, List.nodup_cons] at hnd
    rcases List.mem_cons.mp hmem with h1 | h1
    · have haid : a.1.id = cid := by rw [← h1]; exact hkid
      have hrest : ∀ p ∈ rest, fupd vis cid true p.1.id = vis p.1.id := by
        intro p hp
        have : p.1.id ≠ cid := by
          intro hh
          exact hnd.1 (haid ▸ hh ▸ List.mem_map.mpr ⟨p, hp, rfl⟩)
        rw [fupd_ne _ _ _ this]
      rw [List.countP_cons, List.countP_cons, countP_vis_congr rest hrest]
      have h2 : fupd vis cid true a.1.id = true := by rw [haid, fupd_self]
      have h3 : vis a.1.id = false := by rw [haid]; exact hvf
      simp [h2, h3]
    · have haid : a.1.id ≠ cid := by
        intro hh
        exact hnd.1 (hh ▸ hkid ▸ List.mem_map.mpr ⟨(k, es), h1, rfl⟩)
      rw [List.countP_cons, List.countP_cons, ih hnd.2 h1]
      rw [fupd_ne _ _ _ haid]
      omega

theorem uv_fupd_true {V : Type} {l : List (Vertex V × List (Edge V))}
    {k : Vertex V} {es : List (Edge V)} {vis : ℕ → Bool} {cid : ℕ}
    (hnd : (l.map (fun p => p.1.id)).Nodup) (hmem : (k, es) ∈ l) (hkid : k.id = cid)
    (hvf : vis cid = false) :
    (l.map (fun p => if fupd vis cid true p.1.id then 0 else p.2.length)).sum + es.length =
      (l.map (fun p => if vis p.1.id then 0 else p.2.length)).sum := by
  induction l with
  | nil => simp at hmem
  | cons a rest ih =>
    simp only [List.map_cons, List.nodup_cons] at hnd
    rcases List.mem_cons.mp hmem with h1 | h1
    · have haid : a.1.id = cid := by rw [← h1]; exact hkid
      have hres : a.2 = es := by rw [← h1]
      have hrest : ∀ p ∈ rest, fupd vis cid true p.1.id = vis p.1.id := by
        intro p hp
        have : p.1.id ≠ cid := by
          intro hh
          exact hnd.1 (haid ▸ hh ▸ List.mem_map.mpr ⟨p, hp, rfl⟩)
        rw [fupd_ne _ _ _ this]
      have hcong : (rest.map (fun p => if fupd vis cid true p.1.id then 0 else p.2.length)).sum =
          (rest.map (fun p => if vis p.1.id then 0 else p.2.length)).sum :=
        uv_congr rest hrest
      have h2 : fupd vis cid true a.1.id = true := by rw [haid, fupd_self]
      have h3 : vis a.1.id = false := by rw [haid]; exact hvf
      simp [h2, h3, hres, hcong]
      omega
    · have haid : a.1.id ≠ cid := by
        intro hh
        exact hnd.1 (hh ▸ hkid ▸ List.mem_map.mpr ⟨(k, es), h1, rfl⟩)
      simp only [List.map_cons, List.sum_cons, fupd_ne _ _ _ haid]
      have := ih hnd.2 h1
      omega

theorem unvisitedEdges_false {V : Type} (g : Graph V) :
    unvisitedEdges g (fun _ => false) = totalEdges g := by
  unfold unvisitedEdges totalEdges
  congr 1

/-! ### The cut argument: a popped minimal entry is optimal -/

theorem WalkCost.source_mem {V : Type} {g : Graph V} {a i : ℕ} {w : ℚ}
    (h : WalkCost g a i w) : a ∈ keyIds g := by
  cases h with
  | nil hmem => exact hmem
  | cons he _ =>
    obtain ⟨p, hp, hpid, _⟩ := he
    exact List.mem_map.mpr ⟨p, hp, hpid⟩

theorem cut_lemma {V : Type} {g : Graph V} {startId : ℕ} {s : DState V}
    (hs : StoreInv g) (hn : EdgesNonneg g) (ho : OptInv g startId s) :
    ∀ {a i : ℕ} {w : ℚ}, WalkCost g a i w → ∀ w0 : ℚ, s.visited a = true →
      WalkCost g startId a w0 →
      (s.visited i = true ∧ s.dist i ≤ ((w0 + w : ℚ) : WithTop ℚ)) ∨
      (∃ j, s.visited j = false ∧ s.dist j ≠ ⊤ ∧
        s.dist j ≤ ((w0 + w : ℚ) : WithTop ℚ)) := by
  intro a i w hw
  induction hw with
  | nil hmem =>
    intro w0 ha hpre
    left
    refine ⟨ha, ?_⟩
    have := ho.k1b _ ha w0 hpre
    simpa using this
  | cons he hwk ih =>
    rename_i a1 b1 i1 c1 w1
    intro w0 ha hpre
    by_cases hvb : s.visited b1 = true
    · have hpre1 : WalkCost g startId b1 (w0 + c1) := WalkCost.snoc hs hpre he
      rcases ih (w0 + c1) hvb hpre1 with ⟨h1, h2⟩ | ⟨j, hj1, hj2, hj3⟩
      · left
        refine ⟨h1, ?_⟩
        rw [← add_assoc]
        exact h2
      · right
        refine ⟨j, hj1, hj2, ?_⟩
        rw [← add_assoc]
        exact hj3
    · right
      obtain ⟨p, hp, hpid, e1, he1, he1t, he1c⟩ := he
      have hvisP : s.visited p.1.id = true := by rw [hpid]; exact ha
      rcases ho.k4 p hp hvisP e1 he1 with h1 | h1
      · rw [he1t] at h1
        exact absurd h1 hvb
      · have hda : s.dist a1 ≤ ((w0 : ℚ) : WithTop ℚ) := ho.k1b a1 ha w0 hpre
        rw [hpid, he1t, he1c] at h1
        have hdb : s.dist b1 ≤ ((w0 + c1 : ℚ) : WithTop ℚ) := by
          refine le_trans h1 ?_
          rw [WithTop.coe_add]
          exact add_le_add_right hda _
        have hw1 : 0 ≤ w1 := hwk.nonneg hn
        refine ⟨b1, by simpa using hvb, ne_top_of_le_ne_top WithTop.coe_ne_top hdb, ?_⟩
        refine le_trans hdb ?_
        rw [WithTop.coe_le_coe]
        linarith

theorem pop_optimal {V : Type} {g : Graph V} {startId : ℕ} {s : DState V}
    {c : WithTop ℚ} {cur : Vertex V} {rest : List (WithTop ℚ × Vertex V)}
    (hs : StoreInv g) (hn : EdgesNonneg g) (hb : BasicInv g s) (ho : OptInv g startId s)
    (hpop : popMax s.queue = some ((c, cur), rest)) (hv : s.visited cur.id = false) :
    ∀ w : ℚ, WalkCost g startId cur.id w → c ≤ ((w : ℚ) : WithTop ℚ) := by
  intro w hw
  by_cases hvs : s.visited startId = true
  · rcases cut_lemma hs hn ho hw 0 hvs (WalkCost.nil hw.source_mem) with
      ⟨h1, _⟩ | ⟨j, hj1, hj2, hj3⟩
    · rw [hv] at h1
      exact absurd h1 (by simp)
    · obtain ⟨x, hx, hxid, hxc⟩ := hb.j4 j hj1 hj2
      have hmax := popMax_max hpop x hx
      rw [not_entryGT_iff] at hmax
      calc c ≤ x.1 := hmax.1
        _ = s.dist j := hxc
        _ ≤ ((0 + w : ℚ) : WithTop ℚ) := hj3
        _ = ((w : ℚ) : WithTop ℚ) := by rw [zero_add]
  · have hvs0 : s.visited startId = false := by simpa using hvs
    have hd0 : s.dist startId ≠ ⊤ := by rw [ho.k0]; exact WithTop.zero_ne_top
    obtain ⟨x, hx, hxid, hxc⟩ := hb.j4 startId hvs0 hd0
    have hmax := popMax_max hpop x hx
    rw [not_entryGT_iff] at hmax
    have hwn : 0 ≤ w := hw.nonneg hn
    calc c ≤ x.1 := hmax.1
      _ = s.dist startId := hxc
      _ = 0 := ho.k0
      _ ≤ ((w : ℚ) : WithTop ℚ) := by exact_mod_cast hwn

/-! ### The two pop cases: stale (visited) and fresh (unvisited) -/

theorem pairwise_symm_rel {V : Type} {a b : WithTop ℚ × Vertex V}
    (h : a.2.id = b.2.id → a.1 ≠ b.1) : b.2.id = a.2.id → b.1 ≠ a.1 :=
  fun hid he => (h hid.symm) he.symm

theorem stale_next_basic {V : Type} {g : Graph V} {s : DState V}
    {c : WithTop ℚ} {cur : Vertex V} {rest : List (WithTop ℚ × Vertex V)}
    (hb : BasicInv g s) (hpop : popMax s.queue = some ((c, cur), rest))
    (hv : s.visited cur.id = true) :
    BasicInv g ⟨s.dist, fupd s.visited cur.id true, s.prev, rest⟩ := by
  have hpoint : ∀ j, fupd s.visited cur.id true j = s.visited j := by
    intro j
    by_cases hj : j = cur.id
    · subst hj; rw [fupd_self, hv]
    · rw [fupd_ne _ _ _ hj]
  refine ⟨?_, ?_, ?_, ?_, ?_⟩
  · intro x hx
    exact hb.j1 x (pop_rest_mem hpop hx)
  · intro x hx hvis
    dsimp only at hvis
    rw [hpoint] at hvis
    exact hb.j2 x (pop_rest_mem hpop hx) hvis
  · have hp3 : List.Pairwise (fun a b => a.2.id = b.2.id → a.1 ≠ b.1) ((c, cur) :: rest) :=
      ((popMax_perm hpop).pairwise_iff pairwise_symm_rel).mp hb.j3
    exact (List.pairwise_cons.mp hp3).2
  · intro i hvi hdi
    dsimp only at hvi hdi ⊢
    rw [hpoint] at hvi
    obtain ⟨x, hx, hxid, hxc⟩ := hb.j4 i hvi hdi
    rcases List.mem_cons.mp (((popMax_perm hpop).mem_iff).mp hx) with h1 | h1
    · subst h1
      dsimp only at hxid
      rw [hxid] at hv
      rw [hv] at hvi
      exact absurd hvi (by simp)
    · exact ⟨x, h1, hxid, hxc⟩
  · intro i hvit
    dsimp only at hvit ⊢
    rw [hpoint] at hvit
    exact hb.j6 i hvit

theorem stale_next_opt {V : Type} {g : Graph V} {startId : ℕ} {s : DState V}
    {c : WithTop ℚ} {cur : Vertex V} {rest : List (WithTop ℚ × Vertex V)}
    (ho : OptInv g startId s) (hv : s.visited cur.id = true) :
    OptInv g startId ⟨s.dist, fupd s.visited cur.id true, s.prev, rest⟩ := by
  have hpoint : ∀ j, fupd s.visited cur.id true j = s.visited j := by
    intro j
    by_cases hj : j = cur.id
    · subst hj; rw [fupd_self, hv]
    · rw [fupd_ne _ _ _ hj]
  have hvc : visCount g (fupd s.visited cur.id true) = visCount g s.visited :=
    countP_vis_congr _ (fun p _ => hpoint p.1.id)
  refine ⟨ho.k0, ho.k2, ?_, ho.k1a, ?_, ?_, ho.kp, ?_⟩
  · intro p hp hvis e1 he1
    dsimp only at hvis ⊢
    rw [hpoint] at hvis
    rcases ho.k4 p hp hvis e1 he1 with h1 | h1
    · exact Or.inl (by rw [hpoint]; exact h1)
    · exact Or.inr h1
  · intro i hvit w hw
    dsimp only at hvit ⊢
    rw [hpoint] at hvit
    exact ho.k1b i hvit w hw
  · intro i u hpu
    obtain ⟨hkU, hvisU, cc, hE, hd⟩ := ho.k3 i u hpu
    exact ⟨hkU, by dsimp only; rw [hpoint]; exact hvisU, cc, hE, hd⟩
  · intro i hi
    dsimp only at hi ⊢
    rw [hvc]
    exact ho.k5 i hi

theorem stale_next_measure {V : Type} {g : Graph V} {s : DState V}
    {c : WithTop ℚ} {cur : Vertex V} {rest : List (WithTop ℚ × Vertex V)}
    (hpop : popMax s.queue = some ((c, cur), rest)) (hv : s.visited cur.id = true) :
    measureD g ⟨s.dist, fupd s.visited cur.id true, s.prev, rest⟩ < measureD g s := by
  have hpoint : ∀ j, fupd s.visited cur.id true j = s.visited j := by
    intro j
    by_cases hj : j = cur.id
    · subst hj; rw [fupd_self, hv]
    · rw [fupd_ne _ _ _ hj]
  have hlen : s.queue.length = rest.length + 1 := by
    have := (popMax_perm hpop).length_eq
    simpa using this
  unfold measureD unvisitedEdges
  dsimp only
  rw [uv_congr _ (fun p _ => hpoint p.1.id)]
  omega

theorem unvis_next_basic {V : Type} {g : Graph V} {s : DState V}
    {c : WithTop ℚ} {cur : Vertex V} {rest : List (WithTop ℚ × Vertex V)}
    (hb : BasicInv g s) (hpop : popMax s.queue = some ((c, cur), rest))
    (hv : s.visited cur.id = false) :
    BasicInv g ⟨s.dist, fupd s.visited cur.id true, s.prev, rest⟩ := by
  have hdc : s.dist cur.id = c := pop_unvisited_eq hb hpop hv
  have hct : c ≠ ⊤ := (hb.j1 (c, cur) (pop_mem hpop)).2.2
  have hp3 : List.Pairwise (fun a b => a.2.id = b.2.id → a.1 ≠ b.1) ((c, cur) :: rest) :=
    ((popMax_perm hpop).pairwise_iff pairwise_symm_rel).mp hb.j3
  refine ⟨?_, ?_, ?_, ?_, ?_⟩
  · intro x hx
    exact hb.j1 x (pop_rest_mem hpop hx)
  · intro x hx hvis
    dsimp only at hvis ⊢
    by_cases hxc : x.2.id = cur.id
    · rw [hxc, hdc]
      have hmax := popMax_max hpop x (pop_rest_mem hpop hx)
      rw [not_entryGT_iff] at hmax
      have hne : c ≠ x.1 := (List.pairwise_cons.mp hp3).1 x hx hxc.symm
      exact lt_of_le_of_ne hmax.1 hne
    · rw [fupd_ne _ _ _ hxc] at hvis
      exact hb.j2 x (pop_rest_mem hpop hx) hvis
  · exact (List.pairwise_cons.mp hp3).2
  · intro i hvi hdi
    dsimp only at hvi hdi ⊢
    have hic : i ≠ cur.id := by
      intro hh
      rw [hh, fupd_self] at hvi
      exact absurd hvi (by simp)
    rw [fupd_ne _ _ _ hic] at hvi
    obtain ⟨x, hx, hxid, hxc⟩ := hb.j4 i hvi hdi
    rcases List.mem_cons.mp (((popMax_perm hpop).mem_iff).mp hx) with h1 | h1
    · subst h1
      dsimp only at hxid
      exact absurd hxid.symm hic
    · exact ⟨x, h1, hxid, hxc⟩
  · intro i hvit
    dsimp only at hvit ⊢
    by_cases hic : i = cur.id
    · subst hic
      rw [hdc]
      exact hct
    · rw [fupd_ne _ _ _ hic] at hvit
      exact hb.j6 i hvit

theorem unvis_next_relax {V : Type} {g : Graph V} {startId : ℕ} {s : DState V}
    {c : WithTop ℚ} {cur : Vertex V} {rest : List (WithTop ℚ × Vertex V)}
    (hs : StoreInv g) (hn : EdgesNonneg g) (hb : BasicInv g s) (ho : OptInv g startId s)
    (hpop : popMax s.queue = some ((c, cur), rest)) (hv : s.visited cur.id = false) :
    RelaxInv g startId cur ⟨s.dist, fupd s.visited cur.id true, s.prev, rest⟩ := by
  have hdc : s.dist cur.id = c := pop_unvisited_eq hb hpop hv
  have hct : c ≠ ⊤ := (hb.j1 (c, cur) (pop_mem hpop)).2.2
  have hcK : IsKey g cur := (hb.j1 (c, cur) (pop_mem hpop)).1
  have hmono : ∀ j, s.visited j = true → fupd s.visited cur.id true j = true := by
    intro j hj
    by_cases hjc : j = cur.id
    · subst hjc; rw [fupd_self]
    · rw [fupd_ne _ _ _ hjc]; exact hj
  obtain ⟨esc, hesc⟩ := hcK
  have hvcount : visCount g (fupd s.visited cur.id true) = visCount g s.visited + 1 :=
    countP_fupd_true hs.nodup hesc rfl hv
  refine ⟨ho.k0, ho.k2, ?_, ho.k1a, ?_, ?_, ho.kp, ?_, ?_, ?_⟩
  · intro p hp hpne hvis e1 he1
    dsimp only at hvis ⊢
    rw [fupd_ne _ _ _ hpne] at hvis
    rcases ho.k4 p hp hvis e1 he1 with h1 | h1
    · exact Or.inl (hmono _ h1)
    · exact Or.inr h1
  · intro i hvit w hw
    dsimp only at hvit ⊢
    by_cases hic : i = cur.id
    · subst hic
      rw [hdc]
      exact pop_optimal hs hn hb ho hpop hv w hw
    · rw [fupd_ne _ _ _ hic] at hvit
      exact ho.k1b i hvit w hw
  · intro i u hpu
    obtain ⟨hkU, hvisU, cc, hE, hd⟩ := ho.k3 i u hpu
    exact ⟨hkU, hmono _ hvisU, cc, hE, hd⟩
  · intro i hi
    dsimp only at hi ⊢
    rw [hvcount]
    exact (ho.k5 i hi).mono (by omega)
  · dsimp only
    rw [fupd_self]
  · dsimp only
    by_cases hcs : cur.id = startId
    · exact Or.inl hcs
    · refine Or.inr ?_
      have hdt : s.dist cur.id ≠ ⊤ := by rw [hdc]; exact hct
      have hpnone := ho.kp cur.id hcs hdt
      have := ho.k5 cur.id hpnone
      rw [hvcount]
      exact this.mono (by omega)

theorem unvis_next_measure {V : Type} {g : Graph V} {s : DState V}
    {c : WithTop ℚ} {cur : Vertex V} {rest : List (WithTop ℚ × Vertex V)}
    {esc : List (Edge V)}
    (hs : StoreInv g) (hpop : popMax s.queue = some ((c, cur), rest))
    (hv : s.visited cur.id = false) (hesc : (cur, esc) ∈ g.graph) :
    measureD g (relaxAll cur ⟨s.dist, fupd s.visited cur.id true, s.prev, rest⟩ esc)
      < measureD g s := by
  have hlen : s.queue.length = rest.length + 1 := by
    have := (popMax_perm hpop).length_eq
    simpa using this
  have huv : unvisitedEdges g (fupd s.visited cur.id true) + esc.length =
      unvisitedEdges g s.visited :=
    uv_fupd_true hs.nodup hesc rfl hv
  have hql := relaxAll_queue_len cur ⟨s.dist, fupd s.visited cur.id true, s.prev, rest⟩ esc
  have hvis := relaxAll_visited cur ⟨s.dist, fupd s.visited cur.id true, s.prev, rest⟩ esc
  unfold measureD
  rw [hvis]
  dsimp only at hql ⊢
  omega

/-! ### Classification of one loop iteration (cost-sign independent) -/

theorem dstep_basic {V : Type} {g : Graph V} (endId : ℕ) {s : DState V}
    (hs : StoreInv g) (hb : BasicInv g s) :
    (∃ p d, dstep g endId s = StepRes.done p d) ∨
    (∃ s1, dstep g endId s = StepRes.next s1 ∧ BasicInv g s1 ∧
      measureD g s1 < measureD g s) := by
  unfold dstep
  cases hpop : popMax s.queue with
  | none => exact Or.inl ⟨s.prev, ⊤, rfl⟩
  | some pr =>
    obtain ⟨⟨c, cur⟩, q1⟩ := pr
    dsimp only
    by_cases hv : s.visited cur.id = true
    · have hst : s.dist cur.id < c := pop_visited_stale hb hpop hv
      rw [if_pos hst]
      exact Or.inr ⟨_, rfl, stale_next_basic hb hpop hv, stale_next_measure hpop hv⟩
    · have hv0 : s.visited cur.id = false := by simpa using hv
      have hdc := pop_unvisited_eq hb hpop hv0
      have hnst : ¬ s.dist cur.id < c := by rw [hdc]; exact lt_irrefl c
      rw [if_neg hnst]
      have hcK : IsKey g cur := (hb.j1 _ (pop_mem hpop)).1
      obtain ⟨esc, hfind, hesc⟩ := find_entry hs hcK
      rw [hfind]
      dsimp only [Option.map_some', Option.getD_some]
      have hb1 := unvis_next_basic hb hpop hv0
      have hTK : ∀ e ∈ esc, IsKey g e.to_ := fun e he => hs.closed _ hesc e he
      have hcv1 : (⟨s.dist, fupd s.visited cur.id true, s.prev, q1⟩ : DState V).visited
          cur.id = true := by
        dsimp only
        rw [fupd_self]
      have hb2 := relaxAll_basic hTK hcv1 hb1
      have hmeas := unvis_next_measure hs hpop hv0 hesc
      by_cases hend : cur.id = endId
      · rw [if_pos hend]
        exact Or.inl ⟨_, _, rfl⟩
      · rw [if_neg hend]
        exact Or.inr ⟨_, rfl, hb2, hmeas⟩

theorem dloop_basic_done {V : Type} {g : Graph V} (endId : ℕ)
    (hs : StoreInv g) :
    ∀ (k : ℕ) (s : DState V), BasicInv g s → measureD g s < k →
      ∃ p d, dloop g endId k s = LoopRes.done p d := by
  intro k
  induction k with
  | zero => intro s _ hm; omega
  | succ k ih =>
    intro s hb hm
    rcases dstep_basic endId hs hb with ⟨p, d, hd⟩ | ⟨s1, hn1, hb1, hm1⟩
    · exact ⟨p, d, by simp only [dloop, hd]⟩
    · have := ih s1 hb1 (by omega)
      obtain ⟨p, d, hd⟩ := this
      exact ⟨p, d, by simp only [dloop, hn1]; exact hd⟩

theorem dloop_basic_more {V : Type} {g : Graph V} (endId : ℕ)
    (hs : StoreInv g) :
    ∀ (k : ℕ) (s s1 : DState V), BasicInv g s →
      dloop g endId k s = LoopRes.more s1 → BasicInv g s1 := by
  intro k
  induction k with
  | zero =>
    intro s s1 hb h
    simp only [dloop] at h
    injection h with h1
    rw [← h1]
    exact hb
  | succ k ih =>
    intro s s1 hb h
    rcases dstep_basic endId hs hb with ⟨p, d, hd⟩ | ⟨s2, hn1, hb1, _⟩
    · simp only [dloop, hd] at h
      cases h
    · simp only [dloop, hn1] at h
      exact ih s2 s1 hb1 h

/-! ### Invariants of the initial state -/

theorem initState_basic {V : Type} {g : Graph V} {start : Vertex V}
    (hk : IsKey g start) : BasicInv g (initState start) := by
  refine ⟨?_, ?_, ?_, ?_, ?_⟩
  · intro x hx
    simp only [initState, List.mem_singleton] at hx
    subst hx
    refine ⟨hk, ?_, ?_⟩
    · simp only [initState]
      rw [fupd_self]
    · exact WithTop.zero_ne_top
  · intro x hx hvis
    simp only [initState] at hvis
    exact absurd hvis (by simp)
  · exact List.pairwise_singleton _ _
  · intro i hvi hdi
    simp only [initState] at hdi ⊢
    by_cases hi : i = start.id
    · subst hi
      exact ⟨(0, start), List.mem_singleton.mpr rfl, rfl, by rw [fupd_self]⟩
    · rw [fupd_ne _ _ _ hi] at hdi
      exact absurd rfl hdi
  · intro i hvi
    simp [initState] at hvi

theorem initState_opt {V : Type} {g : Graph V} {start : Vertex V}
    (hk : IsKey g start) : OptInv g start.id (initState start) := by
  have hmem : start.id ∈ keyIds g := by
    obtain ⟨es, hes⟩ := hk
    exact List.mem_map.mpr ⟨(start, es), hes, rfl⟩
  refine ⟨?_, ?_, ?_, ?_, ?_, ?_, ?_, ?_⟩
  · simp only [initState]
    rw [fupd_self]
  · intro i
    simp only [initState]
    by_cases hi : i = start.id
    · subst hi; rw [fupd_self]
    · rw [fupd_ne _ _ _ hi]; exact le_top
  · intro p hp hvis
    simp [initState] at hvis
  · intro i hdi
    simp only [initState] at hdi ⊢
    by_cases hi : i = start.id
    · subst hi
      rw [fupd_self]
      exact ⟨0, rfl, WalkCost.nil hmem⟩
    · rw [fupd_ne _ _ _ hi] at hdi
      exact absurd rfl hdi
  · intro i hvi
    simp [initState] at hvi
  · intro i u hpu
    simp [initState] at hpu
  · intro i hi hdi
    simp only [initState] at hdi ⊢
    rw [fupd_ne _ _ _ hi] at hdi
    exact absurd rfl hdi
  · intro i hi
    simp [initState] at hi

theorem initState_measure {V : Type} (g : Graph V) (start : Vertex V) :
    measureD g (initState start) = totalEdges g + 1 := by
  unfold measureD initState
  dsimp only
  rw [unvisitedEdges_false]
  simp
  omega

/-! ### Result bundle delivered by a terminating run on a reachable target -/

/-- What the loop guarantees when it returns through the early exit:
the returned distance is finite, realised by a walk, minimal among all walks;
and the returned predecessor table carries a distance-telescoping chain from
the target back to the start of length at most the vertex count. -/
structure GoodResult {V : Type} (g : Graph V) (startId endId : ℕ)
    (p : ℕ → Option (Vertex V)) (d : WithTop ℚ) : Prop where
  dval : ∃ dd : ℚ, d = (dd : WithTop ℚ) ∧ WalkCost g startId endId dd ∧
    ∀ w : ℚ, WalkCost g startId endId w → dd ≤ w
  chain : ∃ df : ℕ → WithTop ℚ, df startId = 0 ∧ df endId = d ∧
    (∀ i u, p i = some u → IsKey g u ∧
      ∃ c : ℚ, HasEdge g u.id i c ∧ df i = df u.id + (c : WithTop ℚ)) ∧
    (endId = startId ∨ Reaches p startId g.graph.length endId)

/-! ### The drained-queue analysis -/

theorem drain_visited_all {V : Type} {g : Graph V} {startId : ℕ} {s : DState V}
    (hb : BasicInv g s) (ho : OptInv g startId s) (hq : s.queue = []) :
    ∀ {a i : ℕ} {w : ℚ}, WalkCost g a i w → s.visited a = true → s.visited i = true := by
  intro a i w hw
  induction hw with
  | nil _ => exact fun h => h
  | cons he hwk ih =>
    intro ha
    rename_i a1 b1 i1 c1 w1
    apply ih
    obtain ⟨p, hp, hpid, e1, he1, he1t, he1c⟩ := he
    have hvisP : s.visited p.1.id = true := by rw [hpid]; exact ha
    rcases ho.k4 p hp hvisP e1 he1 with h1 | h1
    · rw [he1t] at h1
      exact h1
    · have hda : s.dist p.1.id ≠ ⊤ := hb.j6 _ hvisP
      have hdb : s.dist e1.to_.id ≠ ⊤ := by
        intro hh
        rw [hh] at h1
        have h2 : s.dist p.1.id + (e1.cost : WithTop ℚ) = ⊤ := top_le_iff.mp h1
        rcases WithTop.add_eq_top.mp h2 with h3 | h3
        · exact hda h3
        · exact WithTop.coe_ne_top h3
      rw [he1t] at hdb
      by_cases hvb : s.visited b1 = true
      · exact hvb
      · obtain ⟨x, hx, _⟩ := hb.j4 b1 (by simpa using hvb) hdb
        rw [hq] at hx
        simp at hx

theorem drain_start_visited {V : Type} {g : Graph V} {startId : ℕ} {s : DState V}
    (hb : BasicInv g s) (ho : OptInv g startId s) (hq : s.queue = []) :
    s.visited startId = true := by
  by_cases hv : s.visited startId = true
  · exact hv
  · have hd0 : s.dist startId ≠ ⊤ := by rw [ho.k0]; exact WithTop.zero_ne_top
    obtain ⟨x, hx, _⟩ := hb.j4 startId (by simpa using hv) hd0
    rw [hq] at hx
    simp at hx

/-! ### Classification of one loop iteration, with optimality -/

theorem dstep_opt {V : Type} {g : Graph V} {startId endId : ℕ} {s : DState V}
    (hs : StoreInv g) (hn : EdgesNonneg g) (hb : BasicInv g s) (ho : OptInv g startId s)
    (hne : s.visited endId = false) :
    (dstep g endId s = StepRes.done s.prev ⊤ ∧ s.queue = []) ∨
    (∃ p d, dstep g endId s = StepRes.done p d ∧ GoodResult g startId endId p d) ∨
    (∃ s1, dstep g endId s = StepRes.next s1 ∧ BasicInv g s1 ∧ OptInv g startId s1 ∧
      s1.visited endId = false ∧ measureD g s1 < measureD g s) := by
  unfold dstep
  cases hpop : popMax s.queue with
  | none => exact Or.inl ⟨rfl, (popMax_eq_none_iff s.queue).mp hpop⟩
  | some pr =>
    obtain ⟨⟨c, cur⟩, q1⟩ := pr
    dsimp only
    by_cases hv : s.visited cur.id = true
    · have hst : s.dist cur.id < c := pop_visited_stale hb hpop hv
      rw [if_pos hst]
      have hce : endId ≠ cur.id := by
        intro hh
        rw [hh, hv] at hne
        cases hne
      refine Or.inr (Or.inr ⟨_, rfl, stale_next_basic hb hpop hv,
        stale_next_opt (c := c) ho hv, ?_, stale_next_measure hpop hv⟩)
      dsimp only
      rw [fupd_ne _ _ _ hce]
      exact hne
    · have hv0 : s.visited cur.id = false := by simpa using hv
      have hdc := pop_unvisited_eq hb hpop hv0
      have hnst : ¬ s.dist cur.id < c := by rw [hdc]; exact lt_irrefl c
      rw [if_neg hnst]
      have hcK : IsKey g cur := (hb.j1 _ (pop_mem hpop)).1
      have hct : c ≠ ⊤ := (hb.j1 (c, cur) (pop_mem hpop)).2.2
      obtain ⟨esc, hfind, hesc⟩ := find_entry hs hcK
      rw [hfind]
      dsimp only [Option.map_some', Option.getD_some]
      have hb1 := unvis_next_basic hb hpop hv0
      have hr1 := unvis_next_relax hs hn hb ho hpop hv0
      have hTK : ∀ e ∈ esc, IsKey g e.to_ := fun e he => hs.closed _ hesc e he
      have hcv1 : (⟨s.dist, fupd s.visited cur.id true, s.prev, q1⟩ : DState V).visited
          cur.id = true := by
        dsimp only
        rw [fupd_self]
      have hES : ∀ e ∈ esc, HasEdge g cur.id e.to_.id e.cost ∧ IsKey g e.to_ ∧ 0 ≤ e.cost :=
        fun e he => ⟨⟨(cur, esc), hesc, rfl, e, he, rfl, rfl⟩, hTK e he,
          hn (cur, esc) hesc e he⟩
      have hb2 := relaxAll_basic hTK hcv1 hb1
      obtain ⟨hr2, hcl⟩ := relaxAll_opt hs hcK hES hb1 hr1
      set s1 : DState V := ⟨s.dist, fupd s.visited cur.id true, s.prev, q1⟩ with hs1
      set s2 : DState V := relaxAll cur s1 esc with hs2
      have hvis2 : s2.visited = s1.visited := relaxAll_visited cur s1 esc
      have hd2c : s2.dist cur.id = c := by
        rw [relaxAll_dist_visited cur s1 esc hcv1]
        exact hdc
      have ho2 : OptInv g startId s2 := by
        refine ⟨hr2.k0, hr2.k2, ?_, hr2.k1a, hr2.k1b, hr2.k3, hr2.kp, hr2.k5⟩
        intro p hp
        by_cases hpc : p.1.id = cur.id
        · have hpe : p = (cur, esc) := hs.key_unique hp hesc hpc
          subst hpe
          intro hvis e1 he1
          rcases hcl e1 he1 with h1 | h1
          · refine Or.inl ?_
            rw [hvis2]
            exact h1
          · exact Or.inr h1
        · exact hr2.k4o p hp hpc
      by_cases hend : cur.id = endId
      · rw [if_pos hend]
        refine Or.inr (Or.inl ⟨s2.prev, s2.dist endId, rfl, ?_, ?_⟩)
        · have hdet : s2.dist endId ≠ ⊤ := by
            rw [← hend, hd2c]
            exact hct
          obtain ⟨w, hw, hwalk⟩ := hr2.k1a endId hdet
          have hvise : s2.visited endId = true := by
            rw [hvis2, ← hend]
            exact hcv1
          refine ⟨w, hw, hwalk, ?_⟩
          intro w1 hw1
          have := hr2.k1b endId hvise w1 hw1
          rw [hw] at this
          exact_mod_cast this
        · refine ⟨s2.dist, hr2.k0, rfl, ?_, ?_⟩
          · intro i u hpu
            obtain ⟨hkU, _, cc, hE, hd⟩ := hr2.k3 i u hpu
            exact ⟨hkU, cc, hE, hd⟩
          · by_cases hes : endId = startId
            · exact Or.inl hes
            · refine Or.inr ?_
              have hdet : s2.dist endId ≠ ⊤ := by
                rw [← hend, hd2c]
                exact hct
              have hpn := hr2.kp endId hes hdet
              exact (hr2.k5 endId hpn).mono (List.countP_le_length _)
      · rw [if_neg hend]
        refine Or.inr (Or.inr ⟨s2, rfl, hb2, ho2, ?_, unvis_next_measure hs hpop hv0 hesc⟩)
        rw [hvis2, hs1]
        dsimp only
        rw [fupd_ne _ _ _ (fun hh => hend hh.symm)]
        exact hne

theorem dloop_opt {V : Type} {g : Graph V} {startId : ℕ} (endId : ℕ)
    (hs : StoreInv g) (hn : EdgesNonneg g) :
    ∀ (k : ℕ) (s : DState V), BasicInv g s → OptInv g startId s →
      s.visited endId = false → measureD g s < k →
      ∃ p d, dloop g endId k s = LoopRes.done p d ∧
        ((∃ w : ℚ, WalkCost g startId endId w) → GoodResult g startId endId p d) := by
  intro k
  induction k with
  | zero => intro s _ _ _ hm; omega
  | succ k ih =>
    intro s hb ho hne hm
    rcases dstep_opt hs hn hb ho hne with ⟨hd, hq⟩ | ⟨p, d, hd, hg⟩ |
      ⟨s1, hn1, hb1, ho1, hne1, hm1⟩
    · refine ⟨s.prev, ⊤, by simp only [dloop, hd], ?_⟩
      rintro ⟨w, hw⟩
      have hstart := drain_start_visited hb ho hq
      have hvend := drain_visited_all hb ho hq hw hstart
      rw [hvend] at hne
      cases hne
    · exact ⟨p, d, by simp only [dloop, hd], fun _ => hg⟩
    · obtain ⟨p, d, hd1, hg⟩ := ih s1 hb1 ho1 hne1 (by omega)
      exact ⟨p, d, by simp only [dloop, hn1]; exact hd1, hg⟩

/-! ### Vertex-level walks and path reconstruction -/

/-- A walk presented as the list of vertices it visits: each vertex is a
store key and consecutive vertices are joined by a store edge; `w` is the sum
of the edge costs in path order. -/
inductive VtxWalk {V : Type} (g : Graph V) : List (Vertex V) → ℚ → Prop
  | single {v : Vertex V} : IsKey g v → VtxWalk g [v] 0
  | cons {u v : Vertex V} {rest : List (Vertex V)} {c w : ℚ} :
      IsKey g u → HasEdge g u.id v.id c → VtxWalk g (v :: rest) w →
      VtxWalk g (u :: v :: rest) (c + w)

theorem VtxWalk.vcostCast {V : Type} {g : Graph V} {xs : List (Vertex V)} {w w1 : ℚ}
    (h : VtxWalk g xs w) (hw : w = w1) : VtxWalk g xs w1 := hw ▸ h

theorem VtxWalk.append_edge {V : Type} {g : Graph V} {xs : List (Vertex V)}
    {w c : ℚ} {u v : Vertex V} (h : VtxWalk g xs w) (hlast : xs.getLast? = some u)
    (hE : HasEdge g u.id v.id c) (hKv : IsKey g v) :
    VtxWalk g (xs ++ [v]) (w + c) := by
  induction h with
  | single hk =>
    rename_i v0
    simp only [List.getLast?_singleton, Option.some.injEq] at hlast
    subst hlast
    exact (VtxWalk.cons hk hE (VtxWalk.single hKv)).vcostCast (by ring)
  | @cons u0 v0 rest c0 w0 hk hE0 _ ih =>
    have hlast0 : (v0 :: rest).getLast? = some u := by
      rw [← hlast]
      simp
    exact (VtxWalk.cons hk hE0 (ih hlast0)).vcostCast (by ring)

theorem buildPath_ok {V : Type} {g : Graph V} {prevF : ℕ → Option (Vertex V)}
    {startId : ℕ} {df : ℕ → WithTop ℚ}
    (hchain : ∀ i u, prevF i = some u → IsKey g u ∧
      ∃ c : ℚ, HasEdge g u.id i c ∧ df i = df u.id + (c : WithTop ℚ)) :
    ∀ {k i : ℕ}, Reaches prevF startId k i → ∀ at_ : Vertex V, at_.id = i →
      IsKey g at_ → ∀ fuel : ℕ, k < fuel → ∀ acc : List (Vertex V),
      ∃ (seg : List (Vertex V)) (w : ℚ),
        buildPath prevF startId fuel at_ acc = some (seg ++ acc) ∧
        VtxWalk g seg w ∧ seg.getLast? = some at_ ∧
        (∃ v0, seg.head? = some v0 ∧ v0.id = startId) ∧
        df at_.id = df startId + (w : WithTop ℚ) := by
  intro k i hr
  induction hr with
  | base =>
    intro at_ hat hkat fuel hfuel acc
    obtain ⟨f1, rfl⟩ : ∃ f1, fuel = f1 + 1 := ⟨fuel - 1, by omega⟩
    refine ⟨[at_], 0, ?_, VtxWalk.single hkat, by simp, ⟨at_, by simp, hat⟩, ?_⟩
    · simp only [buildPath, hat, if_true]
      simp
    · rw [hat]
      simp
  | step hp hr1 ih =>
    rename_i k1 i1 u
    intro at_ hat hkat fuel hfuel acc
    obtain ⟨f1, rfl⟩ : ∃ f1, fuel = f1 + 1 := ⟨fuel - 1, by omega⟩
    by_cases hid : at_.id = startId
    · refine ⟨[at_], 0, ?_, VtxWalk.single hkat, by simp, ⟨at_, by simp, hid⟩, ?_⟩
      · simp only [buildPath, hid, if_true]
        simp
      · rw [hid]
        simp
    · obtain ⟨hkU, c, hE, hdfi⟩ := hchain i1 u hp
      obtain ⟨seg, w, heq, hwalk, hlast, hhead, hdfu⟩ :=
        ih u rfl hkU f1 (by omega) (at_ :: acc)
      refine ⟨seg ++ [at_], w + c, ?_, ?_, ?_, ?_, ?_⟩
      · have hpat : prevF at_.id = some u := by rw [hat]; exact hp
        simp only [buildPath, hid, if_false, hpat]
        rw [heq]
        congr 1
        simp
      · exact VtxWalk.append_edge hwalk hlast (by rw [hat]; exact hE) hkat
      · simp
      · obtain ⟨v0, hv0, hv0id⟩ := hhead
        refine ⟨v0, ?_, hv0id⟩
        cases seg with
        | nil => simp at hv0
        | cons x xs =>
          simp at hv0
          simp [hv0]
      · rw [hat, hdfi, hdfu, WithTop.coe_add]
        ring_nf
        rw [add_assoc]

/-! ### Top-level correctness of `get_shortest_path` on reachable queries -/

theorem get_shortest_path_spec {V : Type} {g : Graph V} (hbuilt : Built g)
    (hn : EdgesNonneg g) {f t : ℕ} (hf : f ∈ keyIds g) (ht : t ∈ keyIds g)
    (hreach : ∃ w : ℚ, WalkCost g f t w) :
    ∃ (path : List (Vertex V)) (dd : ℚ),
      get_shortest_path g f t = some (path, (dd : WithTop ℚ)) ∧
      WalkCost g f t dd ∧ (∀ w : ℚ, WalkCost g f t w → dd ≤ w) ∧
      VtxWalk g path dd ∧
      (∃ v0, path.head? = some v0 ∧ v0.id = f) ∧
      (∃ v1, path.getLast? = some v1 ∧ v1.id = t) := by
  have hs := built_storeInv hbuilt
  obtain ⟨sv, hsv, hsvid, hsvK⟩ := get_vertex_mem hf
  obtain ⟨ev, hev, hevid, hevK⟩ := get_vertex_mem ht
  have hbI := initState_basic (g := g) hsvK
  have hoI := initState_opt (g := g) hsvK
  have hmI : measureD g (initState sv) < dijkstraFuel g := by
    rw [initState_measure]
    unfold dijkstraFuel
    omega
  have hneI : (initState sv).visited ev.id = false := rfl
  obtain ⟨p, d, hloop, himp⟩ := dloop_opt ev.id hs hn (dijkstraFuel g)
    (initState sv) hbI hoI hneI hmI
  have hreach1 : ∃ w : ℚ, WalkCost g sv.id ev.id w := by
    rw [hsvid, hevid]
    exact hreach
  have hg := himp hreach1
  obtain ⟨dd, hdd, hwalkdd, hmin⟩ := hg.dval
  obtain ⟨df, hdf0, hdfe, hchain, hRor⟩ := hg.chain
  rw [hsvid, hevid] at hwalkdd
  have hmin1 : ∀ w : ℚ, WalkCost g f t w → dd ≤ w := by
    intro w hw
    exact hmin w (by rw [hsvid, hevid]; exact hw)
  have hdij : dijkstra g sv ev = some (p, d) := by
    unfold dijkstra
    rw [hloop]
  rcases hRor with hes | hR
  · have hbp : buildPath p sv.id (g.graph.length + 1) ev [] = some [ev] := by
      simp [buildPath, hes]
    have hd0 : d = 0 := by rw [← hdfe, hes, hdf0]
    have hdd0 : dd = 0 := by
      rw [hd0] at hdd
      exact_mod_cast hdd.symm
    refine ⟨[ev], dd, ?_, hwalkdd, hmin1, (VtxWalk.single hevK).vcostCast hdd0.symm,
      ⟨ev, by simp, by rw [hes, hsvid]⟩, ⟨ev, by simp, hevid⟩⟩
    simp only [get_shortest_path, hsv, hev, hdij, hbp, hdd]
  · obtain ⟨seg, w, hbp, hwalk, hlast, hhead, hdfw⟩ := buildPath_ok hchain hR ev rfl hevK
      (g.graph.length + 1) (by omega) []
    rw [List.append_nil] at hbp
    have hw_dd : dd = w := by
      have h1 : df ev.id = (w : WithTop ℚ) := by rw [hdfw, hdf0, zero_add]
      rw [hdfe, hdd] at h1
      exact_mod_cast h1
    obtain ⟨v0, hv0, hv0id⟩ := hhead
    refine ⟨seg, dd, ?_, hwalkdd, hmin1, hwalk.vcostCast hw_dd.symm,
      ⟨v0, hv0, by rw [hv0id, hsvid]⟩, ⟨ev, hlast, hevid⟩⟩
    simp only [get_shortest_path, hsv, hev, hdij, hbp, hdd]

/-! ### The self-query: `get_shortest_path v v` -/

theorem get_shortest_path_self {V : Type} {g : Graph V} (hbuilt : Built g) {v : ℕ}
    (hv : v ∈ keyIds g) :
    ∃ vx : Vertex V, get_vertex g v = some vx ∧ vx.id = v ∧
      get_shortest_path g v v = some ([vx], (0 : WithTop ℚ)) := by
  have hs := built_storeInv hbuilt
  obtain ⟨vx, hvx, hvxid, hvxK⟩ := get_vertex_mem hv
  obtain ⟨esc, hfind, hesc⟩ := find_entry hs hvxK
  have hqpop : popMax (initState vx).queue = some (((0 : WithTop ℚ), vx), []) := rfl
  have hd0 : (initState vx).dist vx.id = (0 : WithTop ℚ) := by
    simp only [initState]
    rw [fupd_self]
  have hstep : ∃ p2, dstep g vx.id (initState vx) = StepRes.done p2 (0 : WithTop ℚ) := by
    unfold dstep
    rw [hqpop]
    dsimp only
    rw [if_neg (by rw [hd0]; exact lt_irrefl _)]
    rw [hfind]
    dsimp only [Option.map_some', Option.getD_some]
    rw [if_pos rfl]
    set s1 : DState V :=
      ⟨(initState vx).dist, fupd (initState vx).visited vx.id true,
        (initState vx).prev, []⟩ with hs1
    have hcv1 : s1.visited vx.id = true := by
      rw [hs1]
      dsimp only
      rw [fupd_self]
    have hdist : (relaxAll vx s1 esc).dist vx.id = (0 : WithTop ℚ) := by
      rw [relaxAll_dist_visited vx s1 esc hcv1]
      exact hd0
    rw [hdist]
    exact ⟨_, rfl⟩
  obtain ⟨p2, hstep⟩ := hstep
  have hfuel : dijkstraFuel g = (totalEdges g + g.graph.length + 1) + 1 := rfl
  have hdloop : dloop g vx.id (dijkstraFuel g) (initState vx) =
      LoopRes.done p2 (0 : WithTop ℚ) := by
    rw [hfuel]
    simp only [dloop, hstep]
  have hdij : dijkstra g vx vx = some (p2, (0 : WithTop ℚ)) := by
    unfold dijkstra
    rw [hdloop]
  have hbp : buildPath p2 vx.id (g.graph.length + 1) vx [] = some [vx] := by
    simp [buildPath]
  refine ⟨vx, hvx, hvxid, ?_⟩
  simp only [get_shortest_path, hvx, hdij, hbp]

/-! ### Termination and internal safety of `dijkstra` -/

theorem key_id_lt_length {V : Type} {g : Graph V} (hs : StoreInv g) {w : Vertex V}
    (hk : IsKey g w) : w.id < g.graph.length := by
  obtain ⟨es, hes⟩ := hk
  rw [hs.length_eq]
  exact (hs.complete w.id).mp (List.mem_map.mpr ⟨(w, es), hes, rfl⟩)

theorem dijkstra_terminates {V : Type} {g : Graph V} (hbuilt : Built g)
    {f t : ℕ} (hf : f ∈ keyIds g) (ht : t ∈ keyIds g) :
    ∃ (sv ev : Vertex V) (r : (ℕ → Option (Vertex V)) × WithTop ℚ),
      get_vertex g f = some sv ∧ get_vertex g t = some ev ∧
      dijkstra g sv ev = some r := by
  have hs := built_storeInv hbuilt
  obtain ⟨sv, hsv, _, hsvK⟩ := get_vertex_mem hf
  obtain ⟨ev, hev, _, _⟩ := get_vertex_mem ht
  have hbI := initState_basic (g := g) hsvK
  have hmI : measureD g (initState sv) < dijkstraFuel g := by
    rw [initState_measure]
    unfold dijkstraFuel
    omega
  obtain ⟨p, d, hd⟩ := dloop_basic_done ev.id hs (dijkstraFuel g)
    (initState sv) hbI hmI
  refine ⟨sv, ev, (p, d), hsv, hev, ?_⟩
  unfold dijkstra
  rw [hd]

theorem dijkstra_safe {V : Type} {g : Graph V} (hbuilt : Built g) {f t : ℕ}
    {sv ev : Vertex V} (hsv : get_vertex g f = some sv) (hev : get_vertex g t = some ev) :
    ∀ (k : ℕ) (s1 : DState V),
      dloop g ev.id k (initState sv) = LoopRes.more s1 →
      (∀ x ∈ s1.queue, IsKey g x.2 ∧ x.2.id < g.graph.length ∧
        (g.graph.find? (fun p => p.1.id == x.2.id)).isSome) ∧
      (∀ p ∈ g.graph, ∀ e ∈ p.2, e.to_.id < g.graph.length) := by
  have hs := built_storeInv hbuilt
  have hsvK : IsKey g sv := (get_vertex_eq_some hsv).1
  intro k s1 hloop
  have hb1 := dloop_basic_more ev.id hs k (initState sv) s1
    (initState_basic hsvK) hloop
  constructor
  · intro x hx
    have hk := (hb1.j1 x hx).1
    refine ⟨hk, key_id_lt_length hs hk, ?_⟩
    obtain ⟨es, hfind, _⟩ := find_entry hs hk
    rw [hfind]
    rfl
  · intro p hp e he
    exact key_id_lt_length hs (hs.closed p hp e he)

/-! ### Sequential identity assignment -/

/-- A sequence of `add_vertex` calls on a store, returning the final store
and the list of identities handed out, in call order. -/
def add_vertices {V : Type} (g : Graph V) : List V → Graph V × List ℕ
  | [] => (g, [])
  | v :: rest =>
    let r1 := add_vertex g v
    let r2 := add_vertices r1.1 rest
    (r2.1, r1.2 :: r2.2)

theorem add_vertices_ids {V : Type} :
    ∀ (vs : List V) (g : Graph V),
      (add_vertices g vs).2 = List.range' g.head vs.length := by
  intro vs
  induction vs with
  | nil => intro g; rfl
  | cons v rest ih =>
    intro g
    simp only [add_vertices]
    rw [ih]
    rfl

/-! ### Invalid identities panic everywhere, before any mutation -/

theorem invalid_identity_panics {V : Type} {g : Graph V} (hbuilt : Built g) {id : ℕ}
    (hid : g.head ≤ id) :
    get_vertex g id = none ∧
    (∀ (t : ℕ) (c : ℚ), add_edge g id t c = none) ∧
    (∀ (f : ℕ) (c : ℚ), add_edge g f id c = none) ∧
    (∀ t : ℕ, get_shortest_path g id t = none) ∧
    (∀ f : ℕ, get_shortest_path g f id = none) := by
  have hs := built_storeInv hbuilt
  have hnm : id ∉ keyIds g := by
    intro hmem
    have := (hs.complete id).mp hmem
    omega
  have hnone : get_vertex g id = none := get_vertex_eq_none hnm
  refine ⟨hnone, ?_, ?_, ?_, ?_⟩
  · intro t c
    unfold add_edge
    cases ht : get_vertex g t with
    | none => rfl
    | some tv => rw [hnone]
  · intro f c
    unfold add_edge
    rw [hnone]
  · intro t
    unfold get_shortest_path
    rw [hnone]
  · intro f
    unfold get_shortest_path
    cases hf : get_vertex g f with
    | none => rfl
    | some fv => rw [hnone]

/-! ### Decidability of the store predicates, and the example store is built -/

instance {V : Type} (g : Graph V) (i j : ℕ) (c : ℚ) : Decidable (HasEdge g i j c) := by
  unfold HasEdge
  infer_instance

instance {V : Type} (g : Graph V) : Decidable (EdgesNonneg g) := by
  unfold EdgesNonneg
  infer_instance

theorem built_exampleGraph : Built exampleGraph := by
  have b0 : Built (Graph.new String) := Built.new
  have b1 : Built exV1 := Built.vertex "A" b0
  have b2 : Built exV2 := Built.vertex "B" b1
  have b3 : Built exV3 := Built.vertex "C" b2
  have b4 : Built exV4 := Built.vertex "D" b3
  have b5 : Built exV5 := Built.vertex "E" b4
  have e1 : add_edge exV5 0 1 1 = some exE1 := by decide
  have e2 : add_edge exE1 0 2 3 = some exE2 := by decide
  have e3 : add_edge exE2 1 3 2 = some exE3 := by decide
  have e4 : add_edge exE3 1 4 8 = some exE4 := by decide
  have e5 : add_edge exE4 1 2 1 = some exE5 := by decide
  have e6 : add_edge exE5 2 3 1 = some exE6 := by decide
  have e7 : add_edge exE6 3 4 4 = some exE7 := by decide
  have e8 : add_edge exE7 4 2 3 = some exE8 := by decide
  have e9 : add_edge exE8 2 4 3 = some exampleGraph := by decide
  exact Built.edge (Built.edge (Built.edge (Built.edge (Built.edge (Built.edge
    (Built.edge (Built.edge (Built.edge b5 e1) e2) e3) e4) e5) e6) e7) e8) e9

theorem built_twoG : Built twoG :=
  Built.vertex "B" (Built.vertex "A" Built.new)

/-- An explicit minimum-cost walk 0 → 1 → 2 → 4 in the example store. -/
theorem example_walk_0_4 : WalkCost exampleGraph 0 4 (1 + (1 + (3 + 0))) :=
  WalkCost.cons (show HasEdge exampleGraph 0 1 1 by decide)
    (WalkCost.cons (show HasEdge exampleGraph 1 2 1 by decide)
      (WalkCost.cons (show HasEdge exampleGraph 2 4 3 by decide)
        (WalkCost.nil (show (4 : ℕ) ∈ keyIds exampleGraph by decide))))

/-! ### The claims -/

/-- C1: for every graph built via `add_vertex`/`add_edge` with finite
non-negative non-NaN edge costs and every reachable pair `(from, to)`,
`get_shortest_path` returns normally with a distance equal to the minimum sum
of edge costs over all directed paths from `from` to `to`, and a vertex
sequence starting at `from` and ending at `to` whose consecutive vertices are
joined by store edges whose costs, summed in path order, equal the returned
distance exactly. -/
theorem claim_c1 {V : Type} (g : Graph V) (hbuilt : Built g) (hn : EdgesNonneg g)
    (f t : ℕ) (hf : f ∈ keyIds g) (ht : t ∈ keyIds g)
    (hreach : ∃ w : ℚ, WalkCost g f t w) :
    ∃ (path : List (Vertex V)) (dd : ℚ),
      get_shortest_path g f t = some (path, (dd : WithTop ℚ)) ∧
      WalkCost g f t dd ∧ (∀ w : ℚ, WalkCost g f t w → dd ≤ w) ∧
      VtxWalk g path dd ∧
      (∃ v0, path.head? = some v0 ∧ v0.id = f) ∧
      (∃ v1, path.getLast? = some v1 ∧ v1.id = t) :=
  get_shortest_path_spec hbuilt hn hf ht hreach

/-- C1 witness: the theorem applied to the example graph of `main` with the
query `(0, 4)`, every hypothesis discharged concretely. -/
theorem claim_c1_witness :
    (Built exampleGraph ∧ EdgesNonneg exampleGraph ∧ 0 ∈ keyIds exampleGraph ∧
      4 ∈ keyIds exampleGraph ∧ (∃ w : ℚ, WalkCost exampleGraph 0 4 w)) ∧
    (∃ (path : List (Vertex String)) (dd : ℚ),
      get_shortest_path exampleGraph 0 4 = some (path, (dd : WithTop ℚ)) ∧
      WalkCost exampleGraph 0 4 dd ∧ (∀ w : ℚ, WalkCost exampleGraph 0 4 w → dd ≤ w) ∧
      VtxWalk exampleGraph path dd ∧
      (∃ v0, path.head? = some v0 ∧ v0.id = 0) ∧
      (∃ v1, path.getLast? = some v1 ∧ v1.id = 4)) :=
  ⟨⟨built_exampleGraph, by decide, by decide, by decide, ⟨_, example_walk_0_4⟩⟩,
    claim_c1 exampleGraph built_exampleGraph (by decide) 0 4 (by decide) (by decide)
      ⟨_, example_walk_0_4⟩⟩

/-- C2, code bug, evaluated at the failing input: on the two-vertex store with
no edges, `dijkstra` itself reports the unreachable target with distance
`+∞` (src line 200), but `get_shortest_path` then unwraps `prev[1] == None`
while reconstructing the path (src line 153) and panics (`= none` in the
model) instead of returning normally. -/
theorem claim_c2_code_bug :
    (dijkstra twoG ⟨0, "A"⟩ ⟨1, "B"⟩).map (fun r => r.2) = some (⊤ : WithTop ℚ) ∧
    get_shortest_path twoG 0 1 = none := by
  constructor
  · with_unfolding_all rfl
  · with_unfolding_all rfl

/-- C3: on every graph built via the API and every existing vertex identity
`v`, `get_shortest_path v v` returns distance 0 and the single-element path
holding exactly the store vertex with identity `v`. -/
theorem claim_c3 {V : Type} (g : Graph V) (hbuilt : Built g) (v : ℕ)
    (hv : v ∈ keyIds g) :
    ∃ vx : Vertex V, get_vertex g v = some vx ∧ vx.id = v ∧
      get_shortest_path g v v = some ([vx], (0 : WithTop ℚ)) :=
  get_shortest_path_self hbuilt hv

/-- C3 witness: the theorem applied to the example graph at vertex 2. -/
theorem claim_c3_witness :
    (Built exampleGraph ∧ 2 ∈ keyIds exampleGraph) ∧
    (∃ vx : Vertex String, get_vertex exampleGraph 2 = some vx ∧ vx.id = 2 ∧
      get_shortest_path exampleGraph 2 2 = some ([vx], (0 : WithTop ℚ))) :=
  ⟨⟨built_exampleGraph, by decide⟩,
    claim_c3 exampleGraph built_exampleGraph 2 (by decide)⟩

/-- C4: on a freshly constructed store, the k-th `add_vertex` call (1-indexed)
returns identity k-1: the identities handed out by any call sequence are
exactly `0, 1, 2, ...` in order, with no gaps and no reuse. -/
theorem claim_c4 (V : Type) (vs : List V) :
    (add_vertices (Graph.new V) vs).2 = List.range vs.length := by
  rw [add_vertices_ids vs (Graph.new V)]
  rw [List.range_eq_range']
  rfl

/-- C5: the concrete scenario of `main` (src lines 222-247): vertices A..E
(ids 0..4), the nine edges, and the query `(A, E)` returning distance `5.0`
via the path `[A, B, C, E]`; the five `add_vertex` calls return `0..4`. -/
theorem claim_c5 :
    (add_vertices (Graph.new String) ["A", "B", "C", "D", "E"]).2 = [0, 1, 2, 3, 4] ∧
    get_shortest_path exampleGraph 0 4 =
      some ([⟨0, "A"⟩, ⟨1, "B"⟩, ⟨2, "C"⟩, ⟨4, "E"⟩], ((5 : ℚ) : WithTop ℚ)) := by
  constructor
  · with_unfolding_all rfl
  · with_unfolding_all rfl

/-- C6: for every graph built via the API and every identity never returned
by `add_vertex` (equivalently, at least `head`), `get_vertex` panics
(`= none` in the model), and so do `add_edge` and `get_shortest_path` invoked
with that identity in either position, in every case before mutating the
store or doing partial work (the model propagates `none` from the failed
lookup itself, which the source reaches before any mutation). -/
theorem claim_c6 {V : Type} (g : Graph V) (hbuilt : Built g) (id : ℕ)
    (hid : g.head ≤ id) :
    get_vertex g id = none ∧
    (∀ (t : ℕ) (c : ℚ), add_edge g id t c = none) ∧
    (∀ (f : ℕ) (c : ℚ), add_edge g f id c = none) ∧
    (∀ t : ℕ, get_shortest_path g id t = none) ∧
    (∀ f : ℕ, get_shortest_path g f id = none) :=
  invalid_identity_panics hbuilt hid

/-- C6 witness: the theorem applied to the example graph (head = 5) at the
never-issued identity 7. -/
theorem claim_c6_witness :
    (Built exampleGraph ∧ exampleGraph.head ≤ 7) ∧
    (get_vertex exampleGraph 7 = none ∧
      (∀ (t : ℕ) (c : ℚ), add_edge exampleGraph 7 t c = none) ∧
      (∀ (f : ℕ) (c : ℚ), add_edge exampleGraph f 7 c = none) ∧
      (∀ t : ℕ, get_shortest_path exampleGraph 7 t = none) ∧
      (∀ f : ℕ, get_shortest_path exampleGraph f 7 = none)) :=
  ⟨⟨built_exampleGraph, by decide⟩,
    claim_c6 exampleGraph built_exampleGraph 7 (by decide)⟩

/-- C7: after every sequence of `add_vertex`/`add_edge` operations on a fresh
store, key identities are pairwise distinct and are exactly the contiguous
range `0 .. head-1`, and every stored edge targets a vertex present as a key
of the mapping. -/
theorem claim_c7 {V : Type} (g : Graph V) (hbuilt : Built g) :
    (keyIds g).Nodup ∧ (∀ i : ℕ, i ∈ keyIds g ↔ i < g.head) ∧
    (∀ p ∈ g.graph, ∀ e ∈ p.2, IsKey g e.to_) :=
  ⟨(built_storeInv hbuilt).nodup, (built_storeInv hbuilt).complete,
    (built_storeInv hbuilt).closed⟩

/-- C7 witness: the invariant instantiated on the example graph. -/
theorem claim_c7_witness :
    Built exampleGraph ∧
    ((keyIds exampleGraph).Nodup ∧
      (∀ i : ℕ, i ∈ keyIds exampleGraph ↔ i < exampleGraph.head) ∧
      (∀ p ∈ exampleGraph.graph, ∀ e ∈ p.2, IsKey exampleGraph e.to_)) :=
  ⟨built_exampleGraph, claim_c7 exampleGraph built_exampleGraph⟩

/-- C8: the `MinNonNan` comparator is the reverse of the natural numeric
order — `MinNonNan x` compares less than `MinNonNan y` iff `x > y` — it is a
total order on non-NaN values (here: all of `WithTop ℚ`), `Ord::cmp` never
panics (`partial_cmp` is always `some`), and consequently the max-first heap
pop always returns an entry of minimum cost. -/
theorem claim_c8 (V : Type) :
    (∀ x y : WithTop ℚ, (minNonNanCmp x y).isSome) ∧
    (∀ x y : WithTop ℚ, minNonNanCmp x y = some Ordering.lt ↔ y < x) ∧
    (∀ x y : WithTop ℚ, minNonNanCmp x y = some Ordering.gt ↔ x < y) ∧
    (∀ x y : WithTop ℚ, minNonNanCmp x y = some Ordering.eq ↔ x = y) ∧
    (∀ (q : List (WithTop ℚ × Vertex V)) (e : WithTop ℚ × Vertex V)
      (r : List (WithTop ℚ × Vertex V)), popMax q = some (e, r) →
        ∀ x ∈ q, e.1 ≤ x.1) := by
  refine ⟨fun x y => rfl, ?_, ?_, ?_, ?_⟩
  · intro x y
    unfold minNonNanCmp minNonNanPcmp
    rw [Option.some_inj]
    exact compare_lt_iff_lt
  · intro x y
    unfold minNonNanCmp minNonNanPcmp
    rw [Option.some_inj]
    rw [compare_gt_iff_gt]
  · intro x y
    unfold minNonNanCmp minNonNanPcmp
    rw [Option.some_inj]
    rw [compare_eq_iff_eq]
    exact eq_comm
  · intro q e r hpop x hx
    have := popMax_max hpop x hx
    rw [not_entryGT_iff] at this
    exact this.1

/-- C9: on every graph built via the API with finite non-negative non-NaN
edge costs, and for every pair of existing vertex identities, the search
terminates: the main loop of `dijkstra` finishes within the canonical fuel
`totalEdges g + |V| + 2` (each queue push requires a strict decrease of a
recorded distance, so there are at most `1 + totalEdges g` iterations), hence
the fuelled model returns `some`. -/
theorem claim_c9 {V : Type} (g : Graph V) (hbuilt : Built g) (hn : EdgesNonneg g)
    (f t : ℕ) (hf : f ∈ keyIds g) (ht : t ∈ keyIds g) :
    ∃ (sv ev : Vertex V) (r : (ℕ → Option (Vertex V)) × WithTop ℚ),
      get_vertex g f = some sv ∧ get_vertex g t = some ev ∧
      dijkstra g sv ev = some r :=
  dijkstra_terminates hbuilt hf ht

/-- C9 witness: termination on the example graph for the query `(0, 4)`. -/
theorem claim_c9_witness :
    (Built exampleGraph ∧ EdgesNonneg exampleGraph ∧ 0 ∈ keyIds exampleGraph ∧
      4 ∈ keyIds exampleGraph) ∧
    (∃ (sv ev : Vertex String) (r : (ℕ → Option (Vertex String)) × WithTop ℚ),
      get_vertex exampleGraph 0 = some sv ∧ get_vertex exampleGraph 4 = some ev ∧
      dijkstra exampleGraph sv ev = some r) :=
  ⟨⟨built_exampleGraph, by decide, by decide, by decide⟩,
    claim_c9 exampleGraph built_exampleGraph (by decide) 0 4 (by decide) (by decide)⟩

/-- C10: on every graph built solely via the API and every pair of resolved
vertices, the internal operations of `dijkstra` are safe in every reachable
loop state: every queue entry names a key of the adjacency mapping (so the
`unwrap` of the map lookup on src line 182 cannot panic — the lookup is
`isSome`), and every index the loop uses into the `dist`/`visited`/`prev`
vectors (the popped vertex's id and each edge target's id) is strictly below
`graph.len()`, the length of those vectors. -/
theorem claim_c10 {V : Type} (g : Graph V) (hbuilt : Built g) (f t : ℕ)
    (sv ev : Vertex V) (hsv : get_vertex g f = some sv)
    (hev : get_vertex g t = some ev) :
    ∀ (k : ℕ) (s1 : DState V),
      dloop g ev.id k (initState sv) = LoopRes.more s1 →
      (∀ x ∈ s1.queue, IsKey g x.2 ∧ x.2.id < g.graph.length ∧
        (g.graph.find? (fun p => p.1.id == x.2.id)).isSome) ∧
      (∀ p ∈ g.graph, ∀ e ∈ p.2, e.to_.id < g.graph.length) :=
  dijkstra_safe hbuilt hsv hev

/-- C10 witness: the safety facts instantiated on the example graph at the
initial loop state. -/
theorem claim_c10_witness :
    (Built exampleGraph ∧
      get_vertex exampleGraph 0 = some ⟨0, "A"⟩ ∧
      get_vertex exampleGraph 4 = some ⟨4, "E"⟩ ∧
      dloop exampleGraph (4 : ℕ) 0 (initState ⟨0, "A"⟩) =
        LoopRes.more (initState ⟨0, "A"⟩)) ∧
    ((∀ x ∈ (initState (⟨0, "A"⟩ : Vertex String)).queue,
        IsKey exampleGraph x.2 ∧ x.2.id < exampleGraph.graph.length ∧
        (exampleGraph.graph.find? (fun p => p.1.id == x.2.id)).isSome) ∧
      (∀ p ∈ exampleGraph.graph, ∀ e ∈ p.2, e.to_.id < exampleGraph.graph.length)) :=
  ⟨⟨built_exampleGraph, by decide, by decide, rfl⟩,
    claim_c10 exampleGraph built_exampleGraph 0 4 ⟨0, "A"⟩ ⟨4, "E"⟩
      (by decide) (by decide) 0 (initState ⟨0, "A"⟩) rfl⟩

end DijkstraRust
